import Mathlib

/-!
# Verification of the patch-group partitioning toolkit

A shallow embedding in Lean 4 of the pure computational core of the
package-upgrade scripts (`patch_groups.py`, `begin_patch.py`,
`package_list.py`), together with proofs about the partitioning
algorithm, the host-roster construction, the skip-file append logic,
the package-list deduplication, the region validation and the
patch-group counter.

Python dictionaries preserve insertion order, so every dict is embedded
as an association list; `collections.defaultdict(list)` access
`d[k].append(x)` / `d[k].extend(xs)` is embedded by `dAppend`, which
extends the entry in place when the key exists and otherwise adds a new
entry at the end.  Python f-string formatting of a natural number
(`f"pg{i+1}"`) is embedded by `pyNatRepr`, a decimal printer.
-/

set_option maxHeartbeats 1000000

/-- Decimal digit character: `digitChar d` is the character for digit `d`. -/
def digitChar (d : Nat) : Char := Char.ofNat (48 + d)

/-- Digits of a natural number, least significant first, with explicit fuel
(the fuel is only there to make the recursion structural; `natDigitsRev`
always supplies enough). -/
def natDigitsRevAux : Nat → Nat → List Nat
  | 0, _ => []
  | _ + 1, 0 => []
  | fuel + 1, n + 1 => ((n + 1) % 10) :: natDigitsRevAux fuel ((n + 1) / 10)

/-- Decimal digits of `n`, least significant first (`[]` for `0`). -/
def natDigitsRev (n : Nat) : List Nat := natDigitsRevAux n n

/-- Embedding of Python `str(n)` for a natural number: its decimal
representation, most significant digit first. -/
def pyNatRepr (n : Nat) : String :=
  if n = 0 then ("0") else String.mk (((natDigitsRev n).map digitChar).reverse)

/-- Embedding of the Python f-string `f"pg{i}"`: the patch-group name. -/
def pgName (i : Nat) : String := "pg" ++ pyNatRepr i

/-- A Python `dict` from role (or group) names to host lists, as an
insertion-ordered association list. -/
abbrev RoleMap := List (String × List String)

/-- Python `m[k]` lookup (first entry with the key, if any). -/
def lookupRole (m : RoleMap) (k : String) : Option (List String) :=
  (m.find? (fun p => p.1 = k)).map (fun p => p.2)

/-- Python `m[k]` lookup with the defaultdict default `[]`. -/
def getRole (m : RoleMap) (k : String) : List String :=
  (lookupRole m k).getD []

/-- Embedding of `defaultdict(list)` access `m[k].extend(v)` (and of
`m[k].append(x)` with `v = [x]`): extend the entry in place when the key
exists, otherwise add a new entry at the end.  Note that the key is
created even when `v = []`, exactly as defaultdict access does. -/
def dAppend (m : RoleMap) (k : String) (v : List String) : RoleMap :=
  match m with
  | [] => [(k, v)]
  | p :: rest => if p.1 = k then (p.1, p.2 ++ v) :: rest else p :: dAppend rest k v

/-- The reserved role from `patch_groups.py` (the sharded database tier). -/
def reservedRole : String := "be-sharddb"

/-- Embedding of Python `max(...)` over a list of lengths, with the
source's guard `if non_sharddb_roles else 0`: the maximum of the list,
`0` when it is empty. -/
def listMax (l : List Nat) : Nat := l.foldr max 0

/-- The `i`-th column of the role table: the host at position `i` of every
role list long enough to have one, in role order. -/
def colAt (roles : RoleMap) (i : Nat) : List String :=
  roles.filterMap (fun rh => rh.2[i]?)

/-- One iteration of the outer loop of `create_patch_groups`: the inner
`for role, hosts in non_sharddb_roles.items(): if i < len(hosts):
patch_groups[f"pg{i+1}"].append(hosts[i])`. -/
def columnStep (roles : RoleMap) (i : Nat) (acc : RoleMap) : RoleMap :=
  roles.foldl (fun a rh =>
    match rh.2[i]? with
    | some h => dAppend a (pgName (i + 1)) [h]
    | none => a) acc

/-- The dict comprehension
`{role: hosts for role, hosts in hosts_by_role.items() if role != "be-sharddb"}`. -/
def nonSharddbRoles (hosts_by_role : RoleMap) : RoleMap :=
  hosts_by_role.filter (fun p => ¬ (p.1 = reservedRole))

/-- The non-reserved part of `create_patch_groups`: the round-robin
distribution loop `for i in range(max_hosts): ...`. -/
def nonSharddbGroups (hosts_by_role : RoleMap) : RoleMap :=
  (List.range (listMax ((nonSharddbRoles hosts_by_role).map (fun p => p.2.length)))).foldl
    (fun acc i => columnStep (nonSharddbRoles hosts_by_role) i acc) []

/-- Embedding of `create_patch_groups` from `patch_groups.py` (lines
115-134): round-robin distribution of the non-reserved roles followed by
the special allocation of the reserved role (`len == 1` goes to `pg1`;
otherwise the first half, up to `len // 2`, extends `pg2` and the rest
extends `pg1`). -/
def create_patch_groups (hosts_by_role : RoleMap) : RoleMap :=
  let pg := nonSharddbGroups hosts_by_role
  match lookupRole hosts_by_role reservedRole with
  | none => pg
  | some sharddb_hosts =>
    if sharddb_hosts.length = 1 then
      dAppend pg ("pg1") sharddb_hosts
    else
      dAppend (dAppend pg ("pg2") (sharddb_hosts.take (sharddb_hosts.length / 2)))
        ("pg1") (sharddb_hosts.drop (sharddb_hosts.length / 2))

/-! ## Decimal representation: basic facts -/

theorem natDigitsRevAux_eq (n : Nat) : ∀ f, n ≤ f → natDigitsRevAux f n = natDigitsRev n := by
  induction n using Nat.strong_induction_on with
  | _ n ih =>
    intro f hf
    match n, f with
    | 0, 0 => rfl
    | 0, _ + 1 => rfl
    | m + 1, f + 1 =>
      have hd : (m + 1) / 10 < m + 1 := Nat.div_lt_self (Nat.succ_pos m) (by omega)
      have h1 : natDigitsRevAux f ((m + 1) / 10) = natDigitsRev ((m + 1) / 10) :=
        ih _ hd f (by omega)
      have h2 : natDigitsRevAux m ((m + 1) / 10) = natDigitsRev ((m + 1) / 10) :=
        ih _ hd m (by omega)
      show ((m + 1) % 10) :: natDigitsRevAux f ((m + 1) / 10) = natDigitsRev (m + 1)
      rw [h1]
      show _ = natDigitsRevAux (m + 1) (m + 1)
      show _ = ((m + 1) % 10) :: natDigitsRevAux m ((m + 1) / 10)
      rw [h2]

theorem natDigitsRev_succ (n : Nat) :
    natDigitsRev (n + 1) = ((n + 1) % 10) :: natDigitsRev ((n + 1) / 10) := by
  show natDigitsRevAux (n + 1) (n + 1) = _
  show ((n + 1) % 10) :: natDigitsRevAux n ((n + 1) / 10) = _
  rw [natDigitsRevAux_eq _ n (by
    have := Nat.div_lt_self (Nat.succ_pos n) (show 1 < 10 by omega)
    omega)]

theorem natDigitsRev_eq_nil_iff (n : Nat) : natDigitsRev n = [] ↔ n = 0 := by
  cases n with
  | zero => simp [natDigitsRev, natDigitsRevAux]
  | succ m => simp [natDigitsRev_succ]

theorem natDigitsRev_lt (n : Nat) : ∀ d ∈ natDigitsRev n, d < 10 := by
  induction n using Nat.strong_induction_on with
  | _ n ih =>
    cases n with
    | zero => intro d hd; simp [natDigitsRev, natDigitsRevAux] at hd
    | succ m =>
      intro d hd
      rw [natDigitsRev_succ] at hd
      rcases List.mem_cons.mp hd with h | h
      · subst h; exact Nat.mod_lt _ (by omega)
      · exact ih ((m + 1) / 10) (Nat.div_lt_self (Nat.succ_pos m) (by omega)) d h

theorem natDigitsRev_inj : ∀ a b, natDigitsRev a = natDigitsRev b → a = b := by
  intro a
  induction a using Nat.strong_induction_on with
  | _ a ih =>
    intro b h
    match a, b with
    | 0, 0 => rfl
    | 0, m + 1 => rw [natDigitsRev_succ] at h; simp [natDigitsRev, natDigitsRevAux] at h
    | m + 1, 0 => rw [natDigitsRev_succ] at h; simp [natDigitsRev, natDigitsRevAux] at h
    | m + 1, k + 1 =>
      rw [natDigitsRev_succ, natDigitsRev_succ] at h
      have hmod : (m + 1) % 10 = (k + 1) % 10 := by
        have := List.head_eq_of_cons_eq h; exact this
      have htail : natDigitsRev ((m + 1) / 10) = natDigitsRev ((k + 1) / 10) :=
        List.tail_eq_of_cons_eq h
      have hdiv : (m + 1) / 10 = (k + 1) / 10 :=
        ih _ (Nat.div_lt_self (Nat.succ_pos m) (by omega)) _ htail
      omega

theorem digitChar_inj : ∀ d₁, d₁ < 10 → ∀ d₂, d₂ < 10 → digitChar d₁ = digitChar d₂ → d₁ = d₂ := by
  decide

theorem pyNatRepr_data (n : Nat) :
    (pyNatRepr n).data = if n = 0 then ['0'] else ((natDigitsRev n).map digitChar).reverse := by
  by_cases h : n = 0 <;> simp [pyNatRepr, h]

theorem map_digitChar_inj :
    ∀ (l₁ l₂ : List Nat), (∀ d ∈ l₁, d < 10) → (∀ d ∈ l₂, d < 10) →
      l₁.map digitChar = l₂.map digitChar → l₁ = l₂ := by
  intro l₁
  induction l₁ with
  | nil => intro l₂ _ _ h; cases l₂ <;> simp_all
  | cons a l ih =>
    intro l₂ h₁ h₂ h
    cases l₂ with
    | nil => simp at h
    | cons b l' =>
      simp only [List.map_cons, List.cons.injEq] at h
      have hab : a = b :=
        digitChar_inj a (h₁ a (by simp)) b (h₂ b (by simp)) h.1
      have : l = l' := ih l' (fun d hd => h₁ d (by simp [hd])) (fun d hd => h₂ d (by simp [hd])) h.2
      rw [hab, this]

theorem pyNatRepr_inj : ∀ a b, pyNatRepr a = pyNatRepr b → a = b := by
  have key : ∀ n, n ≠ 0 → ¬ (((natDigitsRev n).map digitChar).reverse = ['0']) := by
    intro n hn h
    match hrev : (natDigitsRev n) with
    | [] => rw [natDigitsRev_eq_nil_iff] at hrev; exact hn hrev
    | [d] =>
      rw [hrev] at h
      simp only [List.map_cons, List.map_nil, List.reverse_cons, List.reverse_nil,
        List.nil_append, List.cons.injEq] at h
      have hd10 : d < 10 := natDigitsRev_lt n d (by rw [hrev]; simp)
      have hd0 : d = 0 := digitChar_inj d hd10 0 (by omega) (by simpa using h.1)
      match n, hrev with
      | m + 1, hrev =>
        rw [natDigitsRev_succ] at hrev
        simp only [List.cons.injEq] at hrev
        have : (m + 1) / 10 = 0 := (natDigitsRev_eq_nil_iff _).mp hrev.2
        omega
    | d₁ :: d₂ :: rest =>
      rw [hrev] at h
      have := congrArg List.length h
      simp at this
  intro a b h
  have hd := congrArg String.data h
  rw [pyNatRepr_data, pyNatRepr_data] at hd
  by_cases ha : a = 0 <;> by_cases hb : b = 0
  · omega
  · rw [if_pos ha, if_neg hb] at hd; exact absurd hd.symm (key b hb)
  · rw [if_neg ha, if_pos hb] at hd; exact absurd hd (key a ha)
  · rw [if_neg ha, if_neg hb] at hd
    have : natDigitsRev a = natDigitsRev b :=
      map_digitChar_inj _ _ (natDigitsRev_lt a) (natDigitsRev_lt b)
        (List.reverse_inj.mp hd)
    exact natDigitsRev_inj a b this

theorem pgName_inj : ∀ a b, pgName a = pgName b → a = b := by
  intro a b h
  have hd := congrArg String.data h
  have h1 : (pgName a).data = 'p' :: 'g' :: (pyNatRepr a).data := rfl
  have h2 : (pgName b).data = 'p' :: 'g' :: (pyNatRepr b).data := rfl
  rw [h1, h2] at hd
  simp only [List.cons.injEq, true_and] at hd
  have : pyNatRepr a = pyNatRepr b := by
    cases hA : pyNatRepr a; cases hB : pyNatRepr b
    rw [hA, hB] at hd
    exact congrArg String.mk hd
  exact pyNatRepr_inj a b this

theorem pgName_one : pgName 1 = ("pg1" : String) := by decide

theorem pgName_two : pgName 2 = ("pg2" : String) := by decide

/-! ## Association-list (defaultdict) algebra -/

theorem dAppend_append (m : RoleMap) (k : String) (v₁ v₂ : List String) :
    dAppend (dAppend m k v₁) k v₂ = dAppend m k (v₁ ++ v₂) := by
  induction m with
  | nil => simp [dAppend]
  | cons p rest ih =>
    by_cases h : p.1 = k
    · simp [dAppend, h, List.append_assoc]
    · simp [dAppend, h, ih]

theorem lookupRole_nil (k : String) : lookupRole [] k = none := rfl

theorem lookupRole_cons (p : String × List String) (rest : RoleMap) (k : String) :
    lookupRole (p :: rest) k = if p.1 = k then some p.2 else lookupRole rest k := by
  by_cases h : p.1 = k <;> simp [lookupRole, List.find?_cons, h]

theorem lookupRole_dAppend_self (m : RoleMap) (k : String) (v : List String) :
    lookupRole (dAppend m k v) k = some (getRole m k ++ v) := by
  induction m with
  | nil => simp [dAppend, lookupRole_cons, lookupRole_nil, getRole]
  | cons p rest ih =>
    by_cases h : p.1 = k
    · simp [dAppend, h, lookupRole_cons, getRole]
    · simp [dAppend, h, lookupRole_cons, ih, getRole]

theorem lookupRole_dAppend_ne (m : RoleMap) (k : String) (v : List String) (k' : String)
    (h : ¬ (k' = k)) : lookupRole (dAppend m k v) k' = lookupRole m k' := by
  induction m with
  | nil =>
    rw [show dAppend [] k v = [(k, v)] from rfl, lookupRole_cons]
    rw [if_neg (fun hh => h hh.symm), lookupRole_nil]
  | cons p rest ih =>
    by_cases hp : p.1 = k
    · simp only [dAppend, if_pos hp]
      rw [lookupRole_cons, lookupRole_cons]
      by_cases hk : p.1 = k'
      · exact absurd (hk.symm.trans hp) h
      · simp only [if_neg hk]
    · simp only [dAppend, if_neg hp]
      rw [lookupRole_cons, lookupRole_cons, ih]

theorem dAppend_of_lookup_none (m : RoleMap) (k : String) (v : List String)
    (h : lookupRole m k = none) : dAppend m k v = m ++ [(k, v)] := by
  induction m with
  | nil => rfl
  | cons p rest ih =>
    rw [lookupRole_cons] at h
    by_cases hp : p.1 = k
    · simp [hp] at h
    · simp only [dAppend, if_neg hp, List.cons_append]
      rw [ih (by simpa [hp] using h)]

theorem mem_dAppend (m : RoleMap) (k : String) (v : List String) (g : String × List String)
    (h : g ∈ dAppend m k v) : g.1 = k ∨ g ∈ m := by
  induction m with
  | nil => simp only [dAppend, List.mem_singleton] at h; subst h; exact Or.inl rfl
  | cons p rest ih =>
    by_cases hp : p.1 = k
    · simp only [dAppend, if_pos hp, List.mem_cons] at h
      rcases h with h | h
      · left; rw [h, hp]
      · right; exact List.mem_cons_of_mem _ h
    · simp only [dAppend, if_neg hp, List.mem_cons] at h
      rcases h with h | h
      · right; rw [h]; exact List.mem_cons_self _ _
      · rcases ih h with h' | h'
        · left; exact h'
        · right; exact List.mem_cons_of_mem _ h'

theorem dAppend_values_ne_nil (m : RoleMap) (k : String) (v : List String)
    (hm : ∀ g ∈ m, g.2 ≠ []) (hv : v ≠ []) : ∀ g ∈ dAppend m k v, g.2 ≠ [] := by
  induction m with
  | nil =>
    intro g hg
    simp only [dAppend, List.mem_singleton] at hg
    subst hg
    simpa using hv
  | cons p rest ih =>
    intro g hg
    by_cases hp : p.1 = k
    · simp only [dAppend, if_pos hp, List.mem_cons] at hg
      rcases hg with hg | hg
      · rw [hg]
        simp only [ne_eq, List.append_eq_nil, not_and]
        intro _; exact hv
      · exact hm g (List.mem_cons_of_mem _ hg)
    · simp only [dAppend, if_neg hp, List.mem_cons] at hg
      rcases hg with hg | hg
      · rw [hg]; exact hm p (List.mem_cons_self _ _)
      · exact ih (fun g' hg' => hm g' (List.mem_cons_of_mem _ hg')) g hg

theorem keyIn_dAppend (m : RoleMap) (k : String) (v : List String) (k' : String) :
    (∃ g ∈ dAppend m k v, g.1 = k') ↔ k' = k ∨ ∃ g ∈ m, g.1 = k' := by
  induction m with
  | nil => simp [dAppend, eq_comm]
  | cons p rest ih =>
    by_cases hp : p.1 = k
    · simp only [dAppend, if_pos hp, List.mem_cons]
      constructor
      · rintro ⟨g, hg | hg, hk'⟩
        · subst hk'; rcases hg with rfl | _ <;> simp_all
        · exact Or.inr ⟨g, Or.inr hg, hk'⟩
      · rintro (rfl | ⟨g, hg | hg, hk'⟩)
        · exact ⟨(p.1, p.2 ++ v), Or.inl rfl, hp⟩
        · exact ⟨(p.1, p.2 ++ v), Or.inl rfl, by rw [← hk', hg]⟩
        · exact ⟨g, Or.inr hg, hk'⟩
    · simp only [dAppend, if_neg hp, List.mem_cons]
      constructor
      · rintro ⟨g, hg | hg, hk'⟩
        · exact Or.inr ⟨g, Or.inl hg, hk'⟩
        · rcases ih.mp ⟨g, hg, hk'⟩ with h | ⟨g', hg', hk''⟩
          · exact Or.inl h
          · exact Or.inr ⟨g', Or.inr hg', hk''⟩
      · rintro (rfl | ⟨g, hg | hg, hk'⟩)
        · rcases ih.mpr (Or.inl rfl) with ⟨g, hg, hk'⟩
          exact ⟨g, Or.inr hg, hk'⟩
        · exact ⟨g, Or.inl hg, hk'⟩
        · rcases ih.mpr (Or.inr ⟨g, hg, hk'⟩) with ⟨g', hg', hk''⟩
          exact ⟨g', Or.inr hg', hk''⟩

/-! ## The round-robin distribution loop -/

theorem columnStep_eq (roles : RoleMap) (i : Nat) :
    ∀ acc, columnStep roles i acc =
      if colAt roles i = [] then acc else dAppend acc (pgName (i + 1)) (colAt roles i) := by
  induction roles with
  | nil => intro acc; simp [columnStep, colAt]
  | cons rh rest ih =>
    intro acc
    show columnStep rest i (match rh.2[i]? with
      | some h => dAppend acc (pgName (i + 1)) [h]
      | none => acc) = _
    cases h : rh.2[i]? with
    | none =>
      rw [ih]
      have hcol : colAt (rh :: rest) i = colAt rest i := by
        simp [colAt, List.filterMap_cons, h]
      rw [hcol]
    | some hst =>
      rw [ih]
      have hcol : colAt (rh :: rest) i = hst :: colAt rest i := by
        simp [colAt, List.filterMap_cons, h]
      rw [hcol]
      by_cases hc : colAt rest i = []
      · rw [if_pos hc, if_neg (by simp), hc]
      · rw [if_neg hc, if_neg (by simp), dAppend_append]
        rfl

theorem foldl_columnStep_eq (roles : RoleMap) (m : Nat)
    (hcol : ∀ i, i < m → colAt roles i ≠ []) :
    (List.range m).foldl (fun acc i => columnStep roles i acc) []
      = (List.range m).map (fun i => (pgName (i + 1), colAt roles i)) := by
  induction m with
  | zero => rfl
  | succ m ih =>
    rw [List.range_succ, List.foldl_append, List.map_append]
    simp only [List.foldl_cons, List.foldl_nil, List.map_cons, List.map_nil]
    rw [ih (fun i hi => hcol i (by omega))]
    rw [columnStep_eq, if_neg (hcol m (by omega))]
    apply dAppend_of_lookup_none
    rw [lookupRole]
    rw [List.find?_eq_none.mpr]
    · rfl
    · intro x hx
      rcases List.mem_map.mp hx with ⟨j, hj, hxj⟩
      rw [← hxj]
      simp only [decide_eq_true_eq]
      intro hcontra
      have := pgName_inj _ _ hcontra
      have hjm := List.mem_range.mp hj
      omega

theorem le_listMax (l : List Nat) (x : Nat) (h : x ∈ l) : x ≤ listMax l := by
  induction l with
  | nil => cases h
  | cons a t ih =>
    rcases List.mem_cons.mp h with rfl | h'
    · exact le_max_left _ _
    · exact le_trans (ih h') (le_max_right _ _)

theorem lt_listMax_exists (l : List Nat) (i : Nat) (h : i < listMax l) : ∃ x ∈ l, i < x := by
  induction l with
  | nil => simp [listMax] at h
  | cons a t ih =>
    have : i < max a (listMax t) := h
    rcases (by omega : i < a ∨ i < listMax t) with h' | h'
    · exact ⟨a, List.mem_cons_self _ _, h'⟩
    · rcases ih h' with ⟨x, hx, hix⟩
      exact ⟨x, List.mem_cons_of_mem _ hx, hix⟩

theorem colAt_ne_nil (roles : RoleMap) (i : Nat)
    (h : ∃ rh ∈ roles, i < rh.2.length) : colAt roles i ≠ [] := by
  intro hnil
  rcases h with ⟨rh, hmem, hlen⟩
  have := List.filterMap_eq_nil_iff.mp hnil rh hmem
  rw [List.getElem?_eq_none_iff] at this
  omega

theorem mem_colAt (roles : RoleMap) (i : Nat) (x : String) (h : x ∈ colAt roles i) :
    ∃ rh ∈ roles, x ∈ rh.2 := by
  rcases List.mem_filterMap.mp h with ⟨rh, hmem, hsome⟩
  exact ⟨rh, hmem, List.getElem?_mem hsome⟩

theorem nonSharddbGroups_eq (hosts_by_role : RoleMap) :
    nonSharddbGroups hosts_by_role
      = (List.range (listMax ((nonSharddbRoles hosts_by_role).map (fun p => p.2.length)))).map
          (fun i => (pgName (i + 1), colAt (nonSharddbRoles hosts_by_role) i)) := by
  apply foldl_columnStep_eq
  intro i hi
  apply colAt_ne_nil
  rcases lt_listMax_exists _ i hi with ⟨x, hx, hix⟩
  rcases List.mem_map.mp hx with ⟨rh, hrh, hxrh⟩
  exact ⟨rh, hrh, by omega⟩

theorem mem_nonSharddbGroups (hosts_by_role : RoleMap) (g : String × List String)
    (hg : g ∈ nonSharddbGroups hosts_by_role) (x : String) (hx : x ∈ g.2) :
    ∃ rh ∈ hosts_by_role, ¬ (rh.1 = reservedRole) ∧ x ∈ rh.2 := by
  rw [nonSharddbGroups_eq] at hg
  rcases List.mem_map.mp hg with ⟨i, _, hgi⟩
  rw [← hgi] at hx
  rcases mem_colAt _ _ _ hx with ⟨rh, hrh, hxrh⟩
  rcases List.mem_filter.mp hrh with ⟨hmem, hcond⟩
  exact ⟨rh, hmem, by simpa using hcond, hxrh⟩

/-! ## Counting hosts across the columns -/

theorem sum_count_getElem (x : String) (l : List String) :
    ∀ m, l.length ≤ m → ((List.range m).map (fun i => (l[i]?.toList).count x)).sum = l.count x := by
  induction l with
  | nil =>
    intro m _
    rw [List.count_nil]
    apply List.sum_eq_zero
    intro y hy
    rcases List.mem_map.mp hy with ⟨i, _, hiy⟩
    rw [← hiy]
    rfl
  | cons a t ih =>
    intro m hm
    match m, hm with
    | m + 1, hm =>
      rw [List.range_succ_eq_map, List.map_cons, List.map_map, List.sum_cons]
      have hcomp : ((fun i => ((a :: t)[i]?.toList).count x) ∘ Nat.succ)
          = fun i => (t[i]?.toList).count x := by
        funext i
        simp [Function.comp, List.getElem?_cons_succ]
      rw [hcomp, ih m (by simpa using hm)]
      simp [List.count_cons]
      by_cases hax : a = x <;> simp [hax, beq_iff_eq] <;> omega

theorem count_flatten_cols (roles : RoleMap) (x : String) (m : Nat)
    (hlen : ∀ rh ∈ roles, rh.2.length ≤ m) :
    (((List.range m).map (fun i => colAt roles i)).flatten).count x
      = ((roles.map (fun p => p.2)).flatten).count x := by
  induction roles with
  | nil =>
    have h0 : (List.map (fun i => colAt ([] : RoleMap) i) (List.range m)).flatten = [] := by
      rw [List.flatten_eq_nil_iff]
      intro l hl
      rcases List.mem_map.mp hl with ⟨i, _, hli⟩
      rw [← hli]
      rfl
    simp [h0]
  | cons rh rest ih =>
    have hcol : ∀ i, colAt (rh :: rest) i = (rh.2[i]?.toList) ++ colAt rest i := by
      intro i
      cases h : rh.2[i]? <;> simp [colAt, List.filterMap_cons, h]
    rw [List.count_flatten, List.count_flatten]
    have hmap : (List.range m).map ((List.count x) ∘ (fun i => colAt (rh :: rest) i))
        = (List.range m).map (fun i => (rh.2[i]?.toList).count x + (colAt rest i).count x) := by
      apply List.map_congr_left
      intro i _
      simp [Function.comp, hcol i, List.count_append]
    rw [List.map_map, hmap, List.sum_map_add]
    rw [sum_count_getElem x rh.2 m (hlen rh (List.mem_cons_self _ _))]
    have hrest := ih (fun r hr => hlen r (List.mem_cons_of_mem _ hr))
    rw [List.count_flatten, List.map_map] at hrest
    have hrest' : (List.map (fun i => List.count x (colAt rest i)) (List.range m)).sum
        = List.count x ((rest.map (fun p => p.2)).flatten) := by
      simpa [Function.comp] using hrest
    rw [hrest']
    simp only [List.map_cons, List.sum_cons]
    rw [← List.count_flatten]

/-! ## Unfolding `create_patch_groups` by reserved-role case -/

theorem create_patch_groups_of_none (roles : RoleMap)
    (hres : lookupRole roles reservedRole = none) :
    create_patch_groups roles = nonSharddbGroups roles := by
  unfold create_patch_groups
  rw [hres]

theorem create_patch_groups_of_one (roles : RoleMap) (sh : List String)
    (hres : lookupRole roles reservedRole = some sh) (h1 : sh.length = 1) :
    create_patch_groups roles = dAppend (nonSharddbGroups roles) ("pg1") sh := by
  unfold create_patch_groups
  rw [hres]
  simp [h1]

theorem create_patch_groups_of_many (roles : RoleMap) (sh : List String)
    (hres : lookupRole roles reservedRole = some sh) (h1 : ¬ (sh.length = 1)) :
    create_patch_groups roles
      = dAppend (dAppend (nonSharddbGroups roles) ("pg2") (sh.take (sh.length / 2)))
          ("pg1") (sh.drop (sh.length / 2)) := by
  unfold create_patch_groups
  rw [hres]
  simp [h1]

theorem nonSharddbGroups_reserved_only (l : List String) :
    nonSharddbGroups [(reservedRole, l)] = [] := by
  have h : nonSharddbRoles [(reservedRole, l)] = [] := by
    simp [nonSharddbRoles]
  unfold nonSharddbGroups
  rw [h]
  rfl

theorem nonSharddbRoles_of_none (roles : RoleMap)
    (hres : lookupRole roles reservedRole = none) : nonSharddbRoles roles = roles := by
  apply List.filter_eq_self.mpr
  intro p hp
  have hfind : roles.find? (fun p => p.1 = reservedRole) = none :=
    Option.map_eq_none'.mp hres
  have := List.find?_eq_none.mp hfind p hp
  simpa using this

theorem colAt_nonSharddb_ne_nil (roles : RoleMap) (i : Nat)
    (hi : i < listMax ((nonSharddbRoles roles).map (fun p => p.2.length))) :
    colAt (nonSharddbRoles roles) i ≠ [] := by
  apply colAt_ne_nil
  rcases lt_listMax_exists _ i hi with ⟨x, hx, hix⟩
  rcases List.mem_map.mp hx with ⟨rh, hrh, hxrh⟩
  exact ⟨rh, hrh, by omega⟩

theorem nonSharddbGroups_values_ne_nil (roles : RoleMap) :
    ∀ g ∈ nonSharddbGroups roles, g.2 ≠ [] := by
  intro g hg
  rw [nonSharddbGroups_eq] at hg
  rcases List.mem_map.mp hg with ⟨i, hi, hgi⟩
  rw [← hgi]
  exact colAt_nonSharddb_ne_nil roles i (List.mem_range.mp hi)

theorem keyIn_nonSharddbGroups (roles : RoleMap) (name : String) :
    (∃ g ∈ nonSharddbGroups roles, g.1 = name) ↔
      ∃ j, 1 ≤ j ∧ j ≤ listMax ((nonSharddbRoles roles).map (fun p => p.2.length))
        ∧ name = pgName j := by
  rw [nonSharddbGroups_eq]
  constructor
  · rintro ⟨g, hg, hname⟩
    rcases List.mem_map.mp hg with ⟨i, hi, hgi⟩
    refine ⟨i + 1, by omega, ?_, by rw [← hname, ← hgi]⟩
    have := List.mem_range.mp hi
    omega
  · rintro ⟨j, hj1, hjm, hname⟩
    refine ⟨(pgName j, colAt (nonSharddbRoles roles) (j - 1)), ?_, hname.symm⟩
    apply List.mem_map.mpr
    refine ⟨j - 1, List.mem_range.mpr (by omega), ?_⟩
    have hj : j - 1 + 1 = j := by omega
    rw [hj]

/-! ## Claims C1-C5: the partitioning policy -/

/-- C1: for every role-to-host-list mapping with no reserved role
("be-sharddb") and pairwise-distinct host names, `create_patch_groups`
is the round-robin transpose of the role lists: the output is exactly
the list of groups `pg(i+1)` holding the hosts at position `i` of each
role list long enough to have one, and every host appears in exactly
one group (with multiplicity one). -/
theorem create_patch_groups_transpose (roles : RoleMap)
    (hres : lookupRole roles reservedRole = none)
    (hnodup : ((roles.map (fun p => p.2)).flatten).Nodup) :
    create_patch_groups roles
      = (List.range (listMax (roles.map (fun p => p.2.length)))).map
          (fun i => (pgName (i + 1), colAt roles i))
    ∧ ∀ x ∈ (roles.map (fun p => p.2)).flatten,
        (((create_patch_groups roles).map (fun g => g.2)).flatten).count x = 1 := by
  have hnsr : nonSharddbRoles roles = roles := nonSharddbRoles_of_none roles hres
  have heq : create_patch_groups roles
      = (List.range (listMax (roles.map (fun p => p.2.length)))).map
          (fun i => (pgName (i + 1), colAt roles i)) := by
    rw [create_patch_groups_of_none roles hres, nonSharddbGroups_eq, hnsr]
  refine ⟨heq, ?_⟩
  intro x hx
  rw [heq, List.map_map]
  have hmap : (List.map ((fun g : String × List String => g.2) ∘
      fun i => (pgName (i + 1), colAt roles i)) (List.range (listMax (roles.map (fun p => p.2.length)))))
      = (List.map (fun i => colAt roles i) (List.range (listMax (roles.map (fun p => p.2.length))))) := by
    apply List.map_congr_left
    intro i _
    rfl
  rw [hmap, count_flatten_cols]
  · exact List.count_eq_one_of_mem hnodup hx
  · intro rh hrh
    exact le_listMax _ _ (List.mem_map.mpr ⟨rh, hrh, rfl⟩)

/-- Witness for C1 at the spec's own example `{web: [a, b, c], db: [x]}`. -/
theorem create_patch_groups_transpose_witness :
    lookupRole [(("web" : String), [("a" : String), "b", "c"]), (("db" : String), [("x" : String)])] reservedRole = none
    ∧ ((([(("web" : String), [("a" : String), "b", "c"]), (("db" : String), [("x" : String)])] : RoleMap).map (fun p => p.2)).flatten).Nodup
    ∧ (create_patch_groups [(("web" : String), [("a" : String), "b", "c"]), (("db" : String), [("x" : String)])]
        = (List.range (listMax (([(("web" : String), [("a" : String), "b", "c"]), (("db" : String), [("x" : String)])] : RoleMap).map (fun p => p.2.length)))).map
            (fun i => (pgName (i + 1), colAt [(("web" : String), [("a" : String), "b", "c"]), (("db" : String), [("x" : String)])] i))
      ∧ ∀ x ∈ (([(("web" : String), [("a" : String), "b", "c"]), (("db" : String), [("x" : String)])] : RoleMap).map (fun p => p.2)).flatten,
          (((create_patch_groups [(("web" : String), [("a" : String), "b", "c"]), (("db" : String), [("x" : String)])]).map (fun g => g.2)).flatten).count x = 1) :=
  ⟨by decide, by decide, create_patch_groups_transpose _ (by decide) (by decide)⟩

/-- C2: when the reserved role has more than one host, the first half
(up to `len // 2`) is appended to group `pg2` and the second half to
group `pg1`; in particular for reserved hosts `[h1, h2, h3]` alone, the
output is exactly `pg2 = [h1]`, `pg1 = [h2, h3]`. -/
theorem create_patch_groups_reserved_split (roles : RoleMap) (sh : List String)
    (hres : lookupRole roles reservedRole = some sh) (hlen : 1 < sh.length) :
    lookupRole (create_patch_groups roles) ("pg2")
        = some (getRole (nonSharddbGroups roles) ("pg2") ++ sh.take (sh.length / 2))
    ∧ lookupRole (create_patch_groups roles) ("pg1")
        = some (getRole (nonSharddbGroups roles) ("pg1") ++ sh.drop (sh.length / 2))
    ∧ ∀ h1 h2 h3 : String,
        create_patch_groups [(reservedRole, [h1, h2, h3])]
          = [(("pg2" : String), [h1]), (("pg1" : String), [h2, h3])] := by
  rw [create_patch_groups_of_many roles sh hres (by omega)]
  refine ⟨?_, ?_, ?_⟩
  · rw [lookupRole_dAppend_ne _ _ _ _ (by decide), lookupRole_dAppend_self]
  · rw [lookupRole_dAppend_self]
    rw [getRole, lookupRole_dAppend_ne _ _ _ _ (by decide)]
    rfl
  · intro h1 h2 h3
    have hres3 : lookupRole [(reservedRole, [h1, h2, h3])] reservedRole = some [h1, h2, h3] := by
      rw [lookupRole_cons]
      simp
    rw [create_patch_groups_of_many _ _ hres3 (by simp)]
    rw [nonSharddbGroups_reserved_only]
    simp [dAppend]

/-- Witness for C2. -/
theorem create_patch_groups_reserved_split_witness :
    lookupRole [(("web" : String), [("a" : String), "b"]), (reservedRole, [("s1" : String), "s2", "s3"])] reservedRole = some [("s1" : String), "s2", "s3"]
    ∧ 1 < ([("s1" : String), "s2", "s3"] : List String).length
    ∧ (lookupRole (create_patch_groups [(("web" : String), [("a" : String), "b"]), (reservedRole, [("s1" : String), "s2", "s3"])]) ("pg2")
        = some (getRole (nonSharddbGroups [(("web" : String), [("a" : String), "b"]), (reservedRole, [("s1" : String), "s2", "s3"])]) ("pg2")
            ++ ([("s1" : String), "s2", "s3"] : List String).take (([("s1" : String), "s2", "s3"] : List String).length / 2))
      ∧ lookupRole (create_patch_groups [(("web" : String), [("a" : String), "b"]), (reservedRole, [("s1" : String), "s2", "s3"])]) ("pg1")
        = some (getRole (nonSharddbGroups [(("web" : String), [("a" : String), "b"]), (reservedRole, [("s1" : String), "s2", "s3"])]) ("pg1")
            ++ ([("s1" : String), "s2", "s3"] : List String).drop (([("s1" : String), "s2", "s3"] : List String).length / 2))
      ∧ ∀ h1 h2 h3 : String,
          create_patch_groups [(reservedRole, [h1, h2, h3])]
            = [(("pg2" : String), [h1]), (("pg1" : String), [h2, h3])]) :=
  ⟨by decide, by decide, create_patch_groups_reserved_split _ _ (by decide) (by decide)⟩

/-- C3 counterexample: with reserved host list `["h"]` and a non-reserved
role that also lists the name `"h"`, the single reserved host's name
appears in a group other than `pg1` (here `pg3`), so the claim as stated
over every mapping is false. -/
theorem reserved_single_host_cex :
    lookupRole [(("web" : String), [("a" : String), "b", "h"]), (reservedRole, [("h" : String)])] reservedRole
      = some [("h" : String)]
    ∧ (("pg3" : String), [("h" : String)])
        ∈ create_patch_groups [(("web" : String), [("a" : String), "b", "h"]), (reservedRole, [("h" : String)])]
    ∧ ¬ (("pg3" : String) = ("pg1" : String)) := by
  decide

/-- C3 (amended): when the reserved role has exactly one host, that host is
placed in group `pg1`; if its name does not occur in any non-reserved
role's list it is in no other group; and when no non-reserved role is
present at all, the output is exactly `{pg1: [host]}` (no `pg2`). -/
theorem reserved_single_host (roles : RoleMap) (h : String)
    (hres : lookupRole roles reservedRole = some [h]) :
    h ∈ getRole (create_patch_groups roles) ("pg1")
    ∧ ((∀ p ∈ roles, ¬ (p.1 = reservedRole) → ¬ (h ∈ p.2)) →
        ∀ g ∈ create_patch_groups roles, h ∈ g.2 → g.1 = ("pg1" : String))
    ∧ ((∀ p ∈ roles, p.1 = reservedRole) →
        create_patch_groups roles = [(("pg1" : String), [h])]) := by
  have hone := create_patch_groups_of_one roles [h] hres (by simp)
  refine ⟨?_, ?_, ?_⟩
  · rw [hone, getRole, lookupRole_dAppend_self]
    simp
  · intro hother g hg hx
    rw [hone] at hg
    rcases mem_dAppend _ _ _ _ hg with hk | hmem
    · exact hk
    · rcases mem_nonSharddbGroups roles g hmem h hx with ⟨rh, hrh, hnres, hhrh⟩
      exact absurd hhrh (hother rh hrh hnres)
  · intro hall
    have hnsr : nonSharddbRoles roles = [] := by
      apply List.filter_eq_nil_iff.mpr
      intro p hp
      simp [hall p hp]
    have hpg : nonSharddbGroups roles = [] := by
      unfold nonSharddbGroups
      rw [hnsr]
      rfl
    rw [hone, hpg]
    rfl

/-- Witness for C3 (amended). -/
theorem reserved_single_host_witness :
    lookupRole [(reservedRole, [("h" : String)])] reservedRole = some [("h" : String)]
    ∧ ("h" : String) ∈ getRole (create_patch_groups [(reservedRole, [("h" : String)])]) ("pg1")
    ∧ (∀ g ∈ create_patch_groups [(reservedRole, [("h" : String)])], ("h" : String) ∈ g.2 → g.1 = ("pg1" : String))
    ∧ create_patch_groups [(reservedRole, [("h" : String)])] = [(("pg1" : String), [("h" : String)])] :=
  ⟨by decide, (reserved_single_host _ _ (by decide)).1,
    (reserved_single_host _ _ (by decide)).2.1 (by decide),
    (reserved_single_host _ _ (by decide)).2.2 (by decide)⟩

/-- C4 counterexample: a reserved host name that also occurs at position 3
of a non-reserved role list lands in `pg4`, outside groups `pg1`/`pg2`,
so the claim as stated over every mapping is false. -/
theorem reserved_hosts_confined_cex :
    lookupRole [(("web" : String), [("a" : String), "b", "c", "h"]), (reservedRole, [("h" : String), "k"])] reservedRole
      = some [("h" : String), "k"]
    ∧ ("h" : String) ∈ [("h" : String), "k"]
    ∧ (("pg4" : String), [("h" : String)])
        ∈ create_patch_groups [(("web" : String), [("a" : String), "b", "c", "h"]), (reservedRole, [("h" : String), "k"])]
    ∧ ¬ (("pg4" : String) = ("pg1" : String) ∨ ("pg4" : String) = ("pg2" : String)) := by
  decide

/-- C4 (amended): every host of the reserved role whose name does not also
occur in a non-reserved role's host list appears only in group `pg1` or
group `pg2` of the output, regardless of how many groups the
non-reserved roles produce. -/
theorem reserved_hosts_confined (roles : RoleMap) (sh : List String) (x : String)
    (hres : lookupRole roles reservedRole = some sh) (hx : x ∈ sh)
    (hother : ∀ p ∈ roles, ¬ (p.1 = reservedRole) → ¬ (x ∈ p.2)) :
    ∀ g ∈ create_patch_groups roles, x ∈ g.2 →
      g.1 = ("pg1" : String) ∨ g.1 = ("pg2" : String) := by
  intro g hg hxg
  have hpg : ∀ g' ∈ nonSharddbGroups roles, ¬ (x ∈ g'.2) := by
    intro g' hg' hxg'
    rcases mem_nonSharddbGroups roles g' hg' x hxg' with ⟨rh, hrh, hnres, hhrh⟩
    exact absurd hhrh (hother rh hrh hnres)
  by_cases h1 : sh.length = 1
  · rw [create_patch_groups_of_one roles sh hres h1] at hg
    rcases mem_dAppend _ _ _ _ hg with hk | hmem
    · exact Or.inl hk
    · exact absurd hxg (hpg g hmem)
  · rw [create_patch_groups_of_many roles sh hres h1] at hg
    rcases mem_dAppend _ _ _ _ hg with hk | hmem
    · exact Or.inl hk
    · rcases mem_dAppend _ _ _ _ hmem with hk | hmem'
      · exact Or.inr hk
      · exact absurd hxg (hpg g hmem')

/-- Witness for C4 (amended). -/
theorem reserved_hosts_confined_witness :
    lookupRole [(("web" : String), [("a" : String)]), (reservedRole, [("h" : String), "k", "m"])] reservedRole
      = some [("h" : String), "k", "m"]
    ∧ ("h" : String) ∈ [("h" : String), "k", "m"]
    ∧ ∀ g ∈ create_patch_groups [(("web" : String), [("a" : String)]), (reservedRole, [("h" : String), "k", "m"])],
        ("h" : String) ∈ g.2 → g.1 = ("pg1" : String) ∨ g.1 = ("pg2" : String) :=
  ⟨by decide, by decide,
    reserved_hosts_confined _ [("h" : String), "k", "m"] _ (by decide) (by decide) (by decide)⟩

/-- C5 counterexample: for the mapping `{be-sharddb: []}` the defaultdict
accesses in the reserved-role branch create the keys `pg2` and `pg1`
with empty host lists, so a group with an empty host list does appear in
the output and the claim as stated over every mapping is false. -/
theorem patch_group_keys_cex :
    create_patch_groups [(reservedRole, ([] : List String))]
      = [(("pg2" : String), ([] : List String)), (("pg1" : String), ([] : List String))]
    ∧ ∃ g ∈ create_patch_groups [(reservedRole, ([] : List String))], g.2 = ([] : List String) := by
  decide

/-- C5 (amended): provided the reserved role, when present, has a non-empty
host list, the key set of the output of `create_patch_groups` is exactly
`{pg1, ..., pgK}` for some `K ≥ 0` (contiguous from 1, no gaps), every
group present has a non-empty host list, and the empty role map yields
the empty output. -/
theorem patch_group_keys (roles : RoleMap)
    (hres : ¬ (lookupRole roles reservedRole = some ([] : List String))) :
    (∃ K, ∀ name, (∃ g ∈ create_patch_groups roles, g.1 = name) ↔
        ∃ j, 1 ≤ j ∧ j ≤ K ∧ name = pgName j)
    ∧ (∀ g ∈ create_patch_groups roles, g.2 ≠ [])
    ∧ create_patch_groups ([] : RoleMap) = [] := by
  have hempty : create_patch_groups ([] : RoleMap) = [] := rfl
  cases hlook : lookupRole roles reservedRole with
  | none =>
    refine ⟨⟨listMax ((nonSharddbRoles roles).map (fun p => p.2.length)), ?_⟩, ?_, hempty⟩
    · intro name
      rw [create_patch_groups_of_none roles hlook]
      exact keyIn_nonSharddbGroups roles name
    · intro g hg
      rw [create_patch_groups_of_none roles hlook] at hg
      exact nonSharddbGroups_values_ne_nil roles g hg
  | some sh =>
    have hshne : sh ≠ [] := fun h => hres (h ▸ hlook)
    have hsh0 : sh.length ≠ 0 := by simpa [List.length_eq_zero] using hshne
    by_cases h1 : sh.length = 1
    · have hone := create_patch_groups_of_one roles sh hlook h1
      have hkeys : ∀ name, (∃ g ∈ create_patch_groups roles, g.1 = name) ↔
          (name = ("pg1" : String)
            ∨ ∃ j, 1 ≤ j ∧ j ≤ listMax ((nonSharddbRoles roles).map (fun p => p.2.length))
                ∧ name = pgName j) := by
        intro name
        rw [hone, keyIn_dAppend, keyIn_nonSharddbGroups]
      refine ⟨?_, ?_, hempty⟩
      · by_cases hm : listMax ((nonSharddbRoles roles).map (fun p => p.2.length)) = 0
        · refine ⟨1, fun name => (hkeys name).trans ?_⟩
          constructor
          · rintro (rfl | ⟨j, hj1, hj2, _⟩)
            · exact ⟨1, by omega, by omega, pgName_one.symm⟩
            · omega
          · rintro ⟨j, hj1, hj2, hname⟩
            have hj : j = 1 := by omega
            subst hj
            exact Or.inl (by rw [hname, pgName_one])
        · refine ⟨listMax ((nonSharddbRoles roles).map (fun p => p.2.length)),
            fun name => (hkeys name).trans ?_⟩
          constructor
          · rintro (rfl | ⟨j, hj1, hj2, hname⟩)
            · exact ⟨1, by omega, by omega, pgName_one.symm⟩
            · exact ⟨j, hj1, hj2, hname⟩
          · rintro ⟨j, hj1, hj2, hname⟩
            exact Or.inr ⟨j, hj1, hj2, hname⟩
      · intro g hg
        rw [hone] at hg
        exact dAppend_values_ne_nil _ _ _ (nonSharddbGroups_values_ne_nil roles) hshne g hg
    · have hmany := create_patch_groups_of_many roles sh hlook h1
      have hlen2 : 2 ≤ sh.length := by omega
      have htake : sh.take (sh.length / 2) ≠ [] := by
        rw [ne_eq, List.take_eq_nil_iff]
        push_neg
        exact ⟨by omega, hshne⟩
      have hdrop : sh.drop (sh.length / 2) ≠ [] := by
        rw [ne_eq, List.drop_eq_nil_iff]
        omega
      have hkeys : ∀ name, (∃ g ∈ create_patch_groups roles, g.1 = name) ↔
          (name = ("pg1" : String) ∨ name = ("pg2" : String)
            ∨ ∃ j, 1 ≤ j ∧ j ≤ listMax ((nonSharddbRoles roles).map (fun p => p.2.length))
                ∧ name = pgName j) := by
        intro name
        rw [hmany, keyIn_dAppend, keyIn_dAppend, keyIn_nonSharddbGroups]
      refine ⟨?_, ?_, hempty⟩
      · by_cases hm : listMax ((nonSharddbRoles roles).map (fun p => p.2.length)) ≤ 2
        · refine ⟨2, fun name => (hkeys name).trans ?_⟩
          constructor
          · rintro (rfl | rfl | ⟨j, hj1, hj2, hname⟩)
            · exact ⟨1, by omega, by omega, pgName_one.symm⟩
            · exact ⟨2, by omega, by omega, pgName_two.symm⟩
            · exact ⟨j, hj1, by omega, hname⟩
          · rintro ⟨j, hj1, hj2, hname⟩
            have hj : j = 1 ∨ j = 2 := by omega
            rcases hj with rfl | rfl
            · exact Or.inl (by rw [hname, pgName_one])
            · exact Or.inr (Or.inl (by rw [hname, pgName_two]))
        · refine ⟨listMax ((nonSharddbRoles roles).map (fun p => p.2.length)),
            fun name => (hkeys name).trans ?_⟩
          constructor
          · rintro (rfl | rfl | ⟨j, hj1, hj2, hname⟩)
            · exact ⟨1, by omega, by omega, pgName_one.symm⟩
            · exact ⟨2, by omega, by omega, pgName_two.symm⟩
            · exact ⟨j, hj1, hj2, hname⟩
          · rintro ⟨j, hj1, hj2, hname⟩
            exact Or.inr (Or.inr ⟨j, hj1, hj2, hname⟩)
      · intro g hg
        rw [hmany] at hg
        exact dAppend_values_ne_nil _ _ _
          (dAppend_values_ne_nil _ _ _ (nonSharddbGroups_values_ne_nil roles) htake) hdrop g hg

/-- Witness for C5 (amended). -/
theorem patch_group_keys_witness :
    ¬ (lookupRole [(("web" : String), [("a" : String)]), (reservedRole, [("s1" : String), "s2"])] reservedRole
        = some ([] : List String))
    ∧ ((∃ K, ∀ name, (∃ g ∈ create_patch_groups [(("web" : String), [("a" : String)]), (reservedRole, [("s1" : String), "s2"])], g.1 = name) ↔
          ∃ j, 1 ≤ j ∧ j ≤ K ∧ name = pgName j)
      ∧ (∀ g ∈ create_patch_groups [(("web" : String), [("a" : String)]), (reservedRole, [("s1" : String), "s2"])], g.2 ≠ [])
      ∧ create_patch_groups ([] : RoleMap) = []) :=
  ⟨by decide, patch_group_keys _ (by decide)⟩

/-! ## Claim C6: the host roster (`get_hosts`) -/

/-- A cloud compute instance as it appears in the provider's parsed JSON
listing: a name and an ordered label dictionary. -/
structure Instance where
  name : String
  labels : List (String × String)

/-- Python dict lookup on a label dictionary. -/
def lookupLabel (labels : List (String × String)) (k : String) : Option String :=
  (labels.find? (fun p => p.1 = k)).map (fun p => p.2)

/-- Embedding of Python `k.startswith(pre)`: the characters of `pre` are a
prefix of the characters of `k`. -/
def pyStartsWith (k pre : String) : Bool := pre.data.isPrefixOf k.data

/-- Embedding of
`next((v for k, v in instance['labels'].items() if k.startswith('role')), None)`:
the value of the first label whose key starts with "role", if any. -/
def roleOf (inst : Instance) : Option String :=
  (inst.labels.find? (fun kv => pyStartsWith kv.1 ("role"))).map (fun kv => kv.2)

/-- Embedding of `instance['labels'].get('region', 'unknown')`. -/
def regionOf (inst : Instance) : String :=
  (lookupLabel inst.labels ("region")).getD ("unknown")

/-- The nested dictionary region → role → hosts. -/
abbrev Roster := List (String × RoleMap)

/-- Nested `defaultdict(lambda: defaultdict(list))` access
`m[region][role].extend(v)`. -/
def dAppend2 (m : Roster) (region role : String) (v : List String) : Roster :=
  match m with
  | [] => [(region, dAppend [] role v)]
  | p :: rest =>
    if p.1 = region then (p.1, dAppend p.2 role v) :: rest
    else p :: dAppend2 rest region role v

/-- The loop body of `get_hosts`: `role = next(..., None)`, then
`if role: hosts_by_role_and_region[region][role].append(instance['name'])`.
Python truthiness makes the guard skip both a missing role (`None`) and a
role label whose value is the empty string (`""` is falsy). -/
def rosterStep (acc : Roster) (inst : Instance) : Roster :=
  match roleOf inst with
  | some role =>
    if role = ("") then acc else dAppend2 acc (regionOf inst) role [inst.name]
  | none => acc

/-- Embedding of the pure core of `get_hosts` (patch_groups.py lines
83-95): given the provider's instance listing (the parsed JSON, already
name-sorted by the gcloud query), bucket the instance names by region
and role — instances without a role-prefixed label are skipped — and
then reverse every host list.  The gcloud/subprocess plumbing that
produces the listing is I/O glue and is not modelled. -/
def get_hosts (instances : List Instance) : Roster :=
  (instances.foldl rosterStep []).map (fun p => (p.1, p.2.map (fun q => (q.1, q.2.reverse))))

/-- Lookup of a region's role map in the roster. -/
def lookupRegion (m : Roster) (r : String) : Option RoleMap :=
  (m.find? (fun p => p.1 = r)).map (fun p => p.2)

/-- Lookup of the host list of a region/role pair in the roster. -/
def lookup2 (m : Roster) (r role : String) : Option (List String) :=
  match lookupRegion m r with
  | none => none
  | some rm => lookupRole rm role

/-- The names of the instances of a given region and role, in listing
order. -/
def selNames (instances : List Instance) (r role : String) : List String :=
  (instances.filter (fun inst => regionOf inst = r ∧ roleOf inst = some role)).map
    (fun inst => inst.name)

theorem lookupRegion_cons (p : String × RoleMap) (rest : Roster) (r : String) :
    lookupRegion (p :: rest) r = if p.1 = r then some p.2 else lookupRegion rest r := by
  by_cases h : p.1 = r <;> simp [lookupRegion, List.find?_cons, h]

theorem lookup2_cons (p : String × RoleMap) (rest : Roster) (r role : String) :
    lookup2 (p :: rest) r role
      = if p.1 = r then lookupRole p.2 role else lookup2 rest r role := by
  simp only [lookup2, lookupRegion_cons]
  by_cases h : p.1 = r
  · simp [h]
  · simp [h]

theorem dAppend2_cons_pos (p : String × RoleMap) (rest : Roster) (r role : String)
    (v : List String) (hp : p.1 = r) :
    dAppend2 (p :: rest) r role v = (p.1, dAppend p.2 role v) :: rest := by
  simp [dAppend2, hp]

theorem dAppend2_cons_neg (p : String × RoleMap) (rest : Roster) (r role : String)
    (v : List String) (hp : ¬ (p.1 = r)) :
    dAppend2 (p :: rest) r role v = p :: dAppend2 rest r role v := by
  simp [dAppend2, hp]

theorem lookup2_dAppend2_self (m : Roster) (r role : String) (v : List String) :
    lookup2 (dAppend2 m r role v) r role = some ((lookup2 m r role).getD [] ++ v) := by
  induction m with
  | nil =>
    show lookup2 [(r, dAppend [] role v)] r role = _
    rw [lookup2_cons, if_pos rfl, lookupRole_dAppend_self]
    rfl
  | cons p rest ih =>
    by_cases hp : p.1 = r
    · rw [dAppend2_cons_pos p rest r role v hp]
      rw [lookup2_cons, lookup2_cons, if_pos hp, if_pos hp, lookupRole_dAppend_self]
      rfl
    · rw [dAppend2_cons_neg p rest r role v hp]
      rw [lookup2_cons, lookup2_cons, if_neg hp, if_neg hp]
      exact ih

theorem lookup2_dAppend2_ne (m : Roster) (r role : String) (v : List String)
    (r' role' : String) (h : ¬ (r' = r ∧ role' = role)) :
    lookup2 (dAppend2 m r role v) r' role' = lookup2 m r' role' := by
  induction m with
  | nil =>
    show lookup2 [(r, dAppend [] role v)] r' role' = none
    rw [lookup2_cons]
    by_cases hr : r = r'
    · rw [if_pos hr]
      have hrole : ¬ (role' = role) := fun hh => h ⟨hr.symm, hh⟩
      rw [show dAppend ([] : RoleMap) role v = [(role, v)] from rfl, lookupRole_cons,
        if_neg (fun hh => hrole hh.symm), lookupRole_nil]
    · rw [if_neg hr]
      rfl
  | cons p rest ih =>
    by_cases hp : p.1 = r
    · rw [dAppend2_cons_pos p rest r role v hp]
      rw [lookup2_cons, lookup2_cons]
      by_cases hr : p.1 = r'
      · rw [if_pos hr, if_pos hr]
        have hrole : ¬ (role' = role) := fun hh => h ⟨by rw [← hr, hp], hh⟩
        exact lookupRole_dAppend_ne _ _ _ _ hrole
      · rw [if_neg hr, if_neg hr]
    · rw [dAppend2_cons_neg p rest r role v hp]
      rw [lookup2_cons, lookup2_cons]
      by_cases hr : p.1 = r'
      · rw [if_pos hr, if_pos hr]
      · rw [if_neg hr, if_neg hr]
        exact ih

theorem lookupRole_map_reverse (rm : RoleMap) (role : String) :
    lookupRole (rm.map (fun q => (q.1, q.2.reverse))) role
      = (lookupRole rm role).map List.reverse := by
  induction rm with
  | nil => rfl
  | cons q rest ih =>
    rw [List.map_cons, lookupRole_cons, lookupRole_cons]
    by_cases h : q.1 = role
    · rw [if_pos h, if_pos h]
      rfl
    · rw [if_neg h, if_neg h]
      exact ih

theorem lookup2_reverseAll (m : Roster) (r role : String) :
    lookup2 (m.map (fun p => (p.1, p.2.map (fun q => (q.1, q.2.reverse))))) r role
      = (lookup2 m r role).map List.reverse := by
  induction m with
  | nil => rfl
  | cons p rest ih =>
    rw [List.map_cons, lookup2_cons, lookup2_cons]
    by_cases h : p.1 = r
    · rw [if_pos h, if_pos h]
      exact lookupRole_map_reverse p.2 role
    · rw [if_neg h, if_neg h]
      exact ih

theorem rosterStep_none (acc : Roster) (inst : Instance) (h : roleOf inst = none) :
    rosterStep acc inst = acc := by
  simp [rosterStep, h]

theorem rosterStep_falsy (acc : Roster) (inst : Instance)
    (h : roleOf inst = some ("")) : rosterStep acc inst = acc := by
  simp [rosterStep, h]

theorem rosterStep_some (acc : Roster) (inst : Instance) (ro : String)
    (h : roleOf inst = some ro) (hne : ¬ (ro = (""))) :
    rosterStep acc inst = dAppend2 acc (regionOf inst) ro [inst.name] := by
  simp [rosterStep, h, hne]

theorem get_hosts_fold (instances : List Instance) (r role : String)
    (hNE : ¬ (role = (""))) :
    ∀ acc : Roster,
      lookup2 (instances.foldl rosterStep acc) r role
        = if lookup2 acc r role = none ∧ selNames instances r role = []
          then none
          else some ((lookup2 acc r role).getD [] ++ selNames instances r role) := by
  induction instances with
  | nil =>
    intro acc
    have hsel : selNames ([] : List Instance) r role = [] := rfl
    rw [List.foldl_nil, hsel]
    cases h : lookup2 acc r role with
    | none => simp [h]
    | some l => simp [h]
  | cons inst rest ih =>
    intro acc
    rw [List.foldl_cons]
    cases hrole : roleOf inst with
    | none =>
      have hsel : selNames (inst :: rest) r role = selNames rest r role := by
        simp [selNames, List.filter_cons, hrole]
      rw [rosterStep_none acc inst hrole, ih, hsel]
    | some ro2 =>
      by_cases hro2 : ro2 = ("")
      · have hne : ¬ (regionOf inst = r ∧ roleOf inst = some role) := by
          intro hh
          rw [hrole] at hh
          have heq : ro2 = role := Option.some.inj hh.2
          exact hNE (heq ▸ hro2)
        have hsel : selNames (inst :: rest) r role = selNames rest r role := by
          simp [selNames, List.filter_cons, hne]
        rw [rosterStep_falsy acc inst (hro2 ▸ hrole), ih, hsel]
      · rw [rosterStep_some acc inst ro2 hrole hro2]
        by_cases hcond : regionOf inst = r ∧ ro2 = role
        · have hsel : selNames (inst :: rest) r role = inst.name :: selNames rest r role := by
            simp [selNames, List.filter_cons, hrole, hcond.1, hcond.2]
          have hacc : lookup2 (dAppend2 acc (regionOf inst) ro2 [inst.name]) r role
              = some ((lookup2 acc r role).getD [] ++ [inst.name]) := by
            rw [hcond.1, hcond.2, lookup2_dAppend2_self]
          rw [ih, hsel, hacc]
          simp only [reduceCtorEq, false_and, if_false, List.cons_ne_nil, and_false]
          rw [Option.getD_some, List.append_assoc]
          rfl
        · have hsel : selNames (inst :: rest) r role = selNames rest r role := by
            have hne : ¬ (regionOf inst = r ∧ roleOf inst = some role) := by
              rw [hrole]
              intro hh
              exact hcond ⟨hh.1, Option.some.inj hh.2⟩
            simp [selNames, List.filter_cons, hne]
          have hacc : lookup2 (dAppend2 acc (regionOf inst) ro2 [inst.name]) r role
              = lookup2 acc r role :=
            lookup2_dAppend2_ne _ _ _ _ _ _ (fun hh => hcond ⟨hh.1.symm, hh.2.symm⟩)
          rw [ih, hsel, hacc]

theorem get_hosts_fold_falsy (instances : List Instance) (r : String) :
    ∀ acc : Roster,
      lookup2 (instances.foldl rosterStep acc) r ("") = lookup2 acc r ("") := by
  induction instances with
  | nil => intro acc; rfl
  | cons inst rest ih =>
    intro acc
    rw [List.foldl_cons]
    cases hrole : roleOf inst with
    | none => rw [rosterStep_none acc inst hrole, ih]
    | some ro2 =>
      by_cases hro2 : ro2 = ("")
      · rw [rosterStep_falsy acc inst (hro2 ▸ hrole), ih]
      · rw [rosterStep_some acc inst ro2 hrole hro2, ih,
          lookup2_dAppend2_ne _ _ _ _ _ _ (fun hh => hro2 hh.2.symm)]

/-- C6 counterexample: an instance whose first role-prefixed label carries
the empty string as value is skipped by the loop guard `if role:` (Python
truthiness: `""` is falsy, like `None`), so the roster built by
`get_hosts` has no entry at all for its region/role pair, although the
claim asserts the instance name is listed there. -/
theorem get_hosts_roster_cex :
    roleOf (Instance.mk ("i1") [(("role"), ("")), (("region"), ("r1"))]) = some ("")
    ∧ selNames [Instance.mk ("i1") [(("role"), ("")), (("region"), ("r1"))]] ("r1") ("")
        = [("i1")]
    ∧ get_hosts [Instance.mk ("i1") [(("role"), ("")), (("region"), ("r1"))]] = []
    ∧ lookup2 (get_hosts [Instance.mk ("i1") [(("role"), ("")), (("region"), ("r1"))]])
        ("r1") ("") = none := by
  refine ⟨by decide, by decide, by decide, by decide⟩

/-- C6 (amended): the host roster built by `get_hosts` maps every region
and every non-empty role to exactly the names of the instances carrying
that region label and that role (the value of the first label whose key
starts with "role"), in the reverse of the order in which they appear in
the provider's listing; a region/role pair with no such instance is
absent.  Because the loop guard `if role:` is false both for a missing
role and for an empty-string role value, instances with no role-prefixed
label and instances whose role value is `""` are omitted, and the roster
never has an entry under the empty role. -/
theorem get_hosts_roster (instances : List Instance) (r role : String) :
    lookup2 (get_hosts instances) r role
      = if role = ("") ∨ selNames instances r role = []
        then none
        else some (selNames instances r role).reverse := by
  by_cases hrole : role = ("")
  · subst hrole
    unfold get_hosts
    rw [lookup2_reverseAll, get_hosts_fold_falsy]
    rw [show lookup2 ([] : Roster) r ("") = none from rfl]
    rw [if_pos (Or.inl rfl)]
    rfl
  · unfold get_hosts
    rw [lookup2_reverseAll, get_hosts_fold instances r role hrole]
    have hnil : lookup2 ([] : Roster) r role = none := rfl
    rw [hnil]
    by_cases hsel : selNames instances r role = []
    · simp [hsel]
    · simp [hsel, hrole]

/-! ## Claim C7: the skip-file append (`ConfigManager.append_skip_file`) -/

/-- Embedding of Python `str.strip()` on the character list: remove
trailing whitespace (via reverse) and then leading whitespace.
Stripping the two ends in either order gives the same result. -/
def stripChars (l : List Char) : List Char :=
  ((l.reverse.dropWhile Char.isWhitespace).reverse).dropWhile Char.isWhitespace

/-- Embedding of Python `str.strip()`. -/
def pyStrip (s : String) : String := String.mk (stripChars s.data)

/-- The lines written by the append loop of `append_skip_file`: each
hostname is stripped; it is written (and added to the seen-set) only
when not already seen. -/
def writtenLines (seen : List String) : List String → List String
  | [] => []
  | h :: rest =>
    if pyStrip h ∈ seen then writtenLines seen rest
    else pyStrip h :: writtenLines (pyStrip h :: seen) rest

/-- Embedding of `ConfigManager.append_skip_file` (begin_patch.py lines
104-127) acting on the skip-file state: `existing` is the list of lines
already in the file (empty when the file is absent), the seen-set is
the set of stripped lines (`set(line.strip() for line in f)`), and the
result is the list of lines of the file after the call. -/
def append_skip_file (existing : List String) (hostnames : List String) : List String :=
  existing ++ writtenLines (existing.map pyStrip) hostnames

theorem dropWhile_head_false (p : Char → Bool) (l : List Char) (x : Char)
    (h : (l.dropWhile p).head? = some x) : p x = false := by
  have hh := List.head?_dropWhile_not p l
  rw [h] at hh
  exact hh

theorem dropWhile_of_head_false (p : Char → Bool) (l : List Char)
    (h : ∀ x, l.head? = some x → p x = false) : l.dropWhile p = l := by
  cases l with
  | nil => rfl
  | cons a t =>
    rw [List.dropWhile_cons, if_neg]
    rw [h a rfl]
    simp

theorem dropWhile_idem (p : Char → Bool) (l : List Char) :
    (l.dropWhile p).dropWhile p = l.dropWhile p := by
  apply dropWhile_of_head_false
  intro x hx
  exact dropWhile_head_false p l x hx

theorem dropWhile_stripChars (l : List Char) :
    (stripChars l).dropWhile Char.isWhitespace = stripChars l :=
  dropWhile_idem _ _

theorem dropWhile_stripChars_reverse (l : List Char) :
    (stripChars l).reverse.dropWhile Char.isWhitespace = (stripChars l).reverse := by
  apply dropWhile_of_head_false
  intro x hx
  set m := (l.reverse.dropWhile Char.isWhitespace).reverse with hm
  have hsplit : m.takeWhile Char.isWhitespace ++ stripChars l = m :=
    List.takeWhile_append_dropWhile Char.isWhitespace m
  have hsne : (stripChars l).reverse ≠ [] := by
    intro hnil
    rw [hnil] at hx
    cases hx
  have hrev : m.reverse = (stripChars l).reverse ++ (m.takeWhile Char.isWhitespace).reverse := by
    conv_lhs => rw [← hsplit]
    rw [List.reverse_append]
  have hmrev : m.reverse = l.reverse.dropWhile Char.isWhitespace := by
    rw [hm, List.reverse_reverse]
  have hhead : (l.reverse.dropWhile Char.isWhitespace).head? = some x := by
    rw [← hmrev, hrev, List.head?_append_of_ne_nil _ hsne, hx]
  exact dropWhile_head_false _ _ _ hhead

theorem stripChars_idem (l : List Char) : stripChars (stripChars l) = stripChars l := by
  show ((stripChars l).reverse.dropWhile Char.isWhitespace).reverse.dropWhile Char.isWhitespace
      = stripChars l
  rw [dropWhile_stripChars_reverse, List.reverse_reverse, dropWhile_stripChars]

theorem pyStrip_idem (s : String) : pyStrip (pyStrip s) = pyStrip s := by
  show String.mk (stripChars (String.mk (stripChars s.data)).data) = _
  show String.mk (stripChars (stripChars s.data)) = _
  rw [stripChars_idem]
  rfl

theorem writtenLines_nodup_notSeen (hostnames : List String) :
    ∀ seen, (writtenLines seen hostnames).Nodup
      ∧ ∀ x ∈ writtenLines seen hostnames, ¬ x ∈ seen := by
  induction hostnames with
  | nil => intro seen; exact ⟨List.nodup_nil, by simp [writtenLines]⟩
  | cons h rest ih =>
    intro seen
    by_cases hs : pyStrip h ∈ seen
    · rw [writtenLines, if_pos hs]
      exact ih seen
    · rw [writtenLines, if_neg hs]
      rcases ih (pyStrip h :: seen) with ⟨hnodup, hnot⟩
      constructor
      · rw [List.nodup_cons]
        refine ⟨?_, hnodup⟩
        intro hmem
        exact hnot _ hmem (List.mem_cons_self _ _)
      · intro x hx
        rcases List.mem_cons.mp hx with rfl | hx'
        · exact hs
        · intro hxs
          exact hnot x hx' (List.mem_cons_of_mem _ hxs)

theorem writtenLines_from_hostnames (hostnames : List String) :
    ∀ seen, ∀ x ∈ writtenLines seen hostnames, ∃ h ∈ hostnames, pyStrip h = x := by
  induction hostnames with
  | nil => intro seen x hx; cases hx
  | cons h rest ih =>
    intro seen x hx
    by_cases hs : pyStrip h ∈ seen
    · rw [writtenLines, if_pos hs] at hx
      rcases ih seen x hx with ⟨h', hh', hstrip⟩
      exact ⟨h', List.mem_cons_of_mem _ hh', hstrip⟩
    · rw [writtenLines, if_neg hs] at hx
      rcases List.mem_cons.mp hx with rfl | hx'
      · exact ⟨h, List.mem_cons_self _ _, rfl⟩
      · rcases ih _ x hx' with ⟨h', hh', hstrip⟩
        exact ⟨h', List.mem_cons_of_mem _ hh', hstrip⟩

theorem writtenLines_covers (hostnames : List String) :
    ∀ seen, ∀ h ∈ hostnames,
      pyStrip h ∈ seen ∨ pyStrip h ∈ writtenLines seen hostnames := by
  induction hostnames with
  | nil => intro seen h hh; cases hh
  | cons h0 rest ih =>
    intro seen h hh
    by_cases hs : pyStrip h0 ∈ seen
    · rw [writtenLines, if_pos hs]
      rcases List.mem_cons.mp hh with rfl | hh'
      · exact Or.inl hs
      · exact ih seen h hh'
    · rw [writtenLines, if_neg hs]
      rcases List.mem_cons.mp hh with rfl | hh'
      · exact Or.inr (List.mem_cons_self _ _)
      · rcases ih (pyStrip h0 :: seen) h hh' with hseen | hwritten
        · rcases List.mem_cons.mp hseen with heq | hseen'
          · exact Or.inr (by rw [heq]; exact List.mem_cons_self _ _)
          · exact Or.inl hseen'
        · exact Or.inr (List.mem_cons_of_mem _ hwritten)

theorem writtenLines_of_all_seen (hostnames : List String) (seen : List String)
    (h : ∀ h0 ∈ hostnames, pyStrip h0 ∈ seen) : writtenLines seen hostnames = [] := by
  induction hostnames with
  | nil => rfl
  | cons h0 rest ih =>
    rw [writtenLines, if_pos (h h0 (List.mem_cons_self _ _))]
    exact ih (fun h1 hh1 => h h1 (List.mem_cons_of_mem _ hh1))

theorem map_pyStrip_writtenLines (seen hostnames : List String) :
    (writtenLines seen hostnames).map pyStrip = writtenLines seen hostnames := by
  have h : ∀ x ∈ writtenLines seen hostnames, pyStrip x = x := by
    intro x hx
    rcases writtenLines_from_hostnames hostnames seen x hx with ⟨h0, _, hstrip⟩
    rw [← hstrip, pyStrip_idem]
  rw [List.map_congr_left h]
  exact List.map_id' _

/-- C7 counterexample: `append_skip_file` never deduplicates lines already
present in the file, so for a prior file whose lines are `a`, `a` the
stripped hostname `a` still occurs on two lines of the resulting file,
refuting the claim's universally quantified consequence. -/
theorem append_skip_file_dedup_cex :
    append_skip_file [("a" : String), "a"] [("a" : String)] = [("a" : String), "a"]
    ∧ ((append_skip_file [("a" : String), "a"] [("a" : String)]).map pyStrip).count ("a" : String) = 2
    ∧ ¬ ((append_skip_file [("a" : String), "a"] [("a" : String)]).map pyStrip).Nodup := by
  decide

/-- C7 (amended): a hostname whose stripped form is already a stripped
line of the file, or was stripped-equal to an earlier hostname of the
same call, is not written again: the newly written lines are pairwise
distinct stripped hostnames none of which is a stripped line of the
prior file; hence when the prior file has no repeated stripped line,
neither has the resulting file; and re-appending the same hostnames to
the resulting file writes nothing (idempotence). -/
theorem append_skip_file_dedup (existing hostnames : List String) :
    (writtenLines (existing.map pyStrip) hostnames).Nodup
    ∧ (∀ x ∈ writtenLines (existing.map pyStrip) hostnames,
        ¬ x ∈ existing.map pyStrip ∧ ∃ h ∈ hostnames, pyStrip h = x)
    ∧ ((existing.map pyStrip).Nodup →
        ((append_skip_file existing hostnames).map pyStrip).Nodup)
    ∧ writtenLines ((append_skip_file existing hostnames).map pyStrip) hostnames = [] := by
  rcases writtenLines_nodup_notSeen hostnames (existing.map pyStrip) with ⟨hnodup, hnot⟩
  have hmap : (append_skip_file existing hostnames).map pyStrip
      = existing.map pyStrip ++ writtenLines (existing.map pyStrip) hostnames := by
    rw [append_skip_file, List.map_append, map_pyStrip_writtenLines]
  refine ⟨hnodup, ?_, ?_, ?_⟩
  · intro x hx
    exact ⟨hnot x hx, writtenLines_from_hostnames hostnames _ x hx⟩
  · intro hexist
    rw [hmap]
    rw [List.nodup_append]
    exact ⟨hexist, hnodup, fun a ha hb => hnot a hb ha⟩
  · apply writtenLines_of_all_seen
    intro h0 hh0
    rw [hmap]
    rcases writtenLines_covers hostnames (existing.map pyStrip) h0 hh0 with hseen | hwritten
    · exact List.mem_append_left _ hseen
    · exact List.mem_append_right _ hwritten

/-- Witness for C7 (amended). -/
theorem append_skip_file_dedup_witness :
    (writtenLines ([("b" : String)].map pyStrip) [("a" : String), " a", "b"]).Nodup
    ∧ ((append_skip_file [("b" : String)] [("a" : String), " a", "b"]).map pyStrip).Nodup
    ∧ writtenLines ((append_skip_file [("b" : String)] [("a" : String), " a", "b"]).map pyStrip)
        [("a" : String), " a", "b"] = [] :=
  ⟨(append_skip_file_dedup [("b" : String)] [("a" : String), " a", "b"]).1,
    (append_skip_file_dedup [("b" : String)] [("a" : String), " a", "b"]).2.2.1 (by decide),
    (append_skip_file_dedup [("b" : String)] [("a" : String), " a", "b"]).2.2.2⟩

/-! ## Claim C8: the package manifest (`generate_package_yaml`) -/

/-- Embedding of Python `s.split(',')` for a single-character separator:
split at every separator occurrence, keeping empty pieces
(`"".split(',') == [""]`). -/
def splitOnChar (sep : Char) : List Char → List (List Char)
  | [] => [[]]
  | c :: rest =>
    match splitOnChar sep rest with
    | [] => [[]]
    | grp :: groups => if c = sep then [] :: grp :: groups else (c :: grp) :: groups

/-- Python `packages.split(',')`. -/
def pySplitComma (s : String) : List String :=
  (splitOnChar (',') s.data).map String.mk

/-- Embedding of Python `set(...)` over a list of strings: the distinct
elements.  A Python set iterates in an unspecified (hash) order; the
model keeps first occurrences.  Every property stated about it below is
insensitive to the iteration order (it only counts occurrences of each
stripped name). -/
def pySet (l : List String) : List String := l.eraseDups

/-- The package list written to the manifest by `generate_package_yaml`
(package_list.py lines 68-98): the comma-separated input is split,
deduplicated with `set(...)`, and only THEN is each piece stripped:
`[pkg.strip() for pkg in set(packages.split(','))]`. -/
def packageListOf (packages : String) : List String :=
  (pySet (pySplitComma packages)).map pyStrip

/-- C8: `generate_package_yaml` deduplicates the raw comma-separated
pieces before stripping them, so two pieces that differ only in
whitespace both survive and strip to the same name: for the input
`"a, a"` the written package list is `["a", "a"]`, which contains the
stripped package name `a` twice.  This contradicts the function's own
docstring ("removes duplicates") and the spec ("deduplicated package
names"): the claim is right and the code is wrong. -/
theorem generate_package_yaml_dup :
    packageListOf ("a, a") = [("a" : String), "a"]
    ∧ (packageListOf ("a, a")).count ("a" : String) = 2
    ∧ ¬ (packageListOf ("a, a")).Nodup := by
  decide

/-! ## Claim C9: region validation (`PatchManager.validate_region`) -/

/-- The regex classes `\d` and `[a-z]` are disjoint. -/
theorem isDigit_not_isLower (c : Char) (h : c.isDigit = true) : c.isLower = false := by
  by_contra hne
  have hl : c.isLower = true := by
    cases hh : c.isLower
    · exact absurd hh hne
    · rfl
  simp only [Char.isDigit, Bool.and_eq_true, decide_eq_true_eq, ge_iff_le] at h
  simp only [Char.isLower, Bool.and_eq_true, decide_eq_true_eq, ge_iff_le] at hl
  rw [UInt32.le_def] at h hl
  have hcontra : (97 : UInt32).toNat ≤ (57 : UInt32).toNat := le_trans hl.1 h.2
  exact absurd hcontra (by decide)

/-- The digit class of Python `re` on a `str` pattern: `\d` matches every
Unicode decimal digit (category Nd), not only the ASCII `0-9`.  The
scanners below therefore take the digit class as a parameter `dig`; the
program is their instance at the actual Nd membership test, and every
theorem assumes of `dig` only `AsciiDigitPred`: that on the ASCII range
the class is exactly the digits `0-9`.  This is true of Nd in every
Unicode version — no ASCII character outside `0-9` is a decimal digit —
and it is all the proofs need, because the surrounding pattern
characters (`[a-z]`, `-`, `:`, `p`, `g`, newline, space) are ASCII. -/
def AsciiDigitPred (dig : Char → Bool) : Prop :=
  ∀ c : Char, c.toNat < 128 → dig c = c.isDigit

theorem isLower_toNat_lt (c : Char) (h : c.isLower = true) : c.toNat < 128 := by
  simp only [Char.isLower, Bool.and_eq_true, decide_eq_true_eq, ge_iff_le] at h
  rw [UInt32.le_def] at h
  have h2 : c.val.toNat ≤ 122 := le_trans h.2 (by decide)
  exact Nat.lt_of_le_of_lt h2 (by decide)

theorem isDigit_toNat_lt (c : Char) (h : c.isDigit = true) : c.toNat < 128 := by
  simp only [Char.isDigit, Bool.and_eq_true, decide_eq_true_eq, ge_iff_le] at h
  rw [UInt32.le_def] at h
  have h2 : c.val.toNat ≤ 57 := le_trans h.2 (by decide)
  exact Nat.lt_of_le_of_lt h2 (by decide)

/-- An ASCII character that is not one of `0-9` is outside the class `\d`,
whatever the non-ASCII part of the class is. -/
theorem digPred_char_false (dig : Char → Bool) (hD : AsciiDigitPred dig) (c : Char)
    (hc : c.toNat < 128) (hd : c.isDigit = false) : dig c = false :=
  (hD c hc).trans hd

/-- The classes `\d` and `[a-z]` are disjoint for every digit class that
agrees with `0-9` on ASCII: a match of `\d` is never lowercase ASCII. -/
theorem digPred_not_isLower (dig : Char → Bool) (hD : AsciiDigitPred dig)
    (c : Char) (h : dig c = true) : c.isLower = false := by
  cases hl : c.isLower with
  | false => rfl
  | true =>
    have hdig : c.isDigit = true := by
      rw [← hD c (isLower_toNat_lt c hl)]
      exact h
    rw [isDigit_not_isLower c hdig] at hl
    cases hl

theorem takeWhile_all_append (p : Char → Bool) (xs : List Char) (y : Char) (t : List Char)
    (hxs : ∀ x ∈ xs, p x = true) (hy : p y = false) :
    (xs ++ y :: t).takeWhile p = xs ∧ (xs ++ y :: t).dropWhile p = y :: t := by
  induction xs with
  | nil => simp [List.takeWhile_cons, List.dropWhile_cons, hy]
  | cons a rest ih =>
    have hpa : p a = true := hxs a (List.mem_cons_self _ _)
    have hrest := ih (fun x hx => hxs x (List.mem_cons_of_mem _ hx))
    simp only [List.cons_append, List.takeWhile_cons, List.dropWhile_cons, hpa, if_true]
    exact ⟨by rw [hrest.1], by rw [hrest.2]⟩

/-- The result of `validate_region`: a normal return, or a printed error
followed by `sys.exit` with the given status. -/
inductive RunResult where
  | ok : RunResult
  | exitCode : Nat → RunResult
deriving DecidableEq

/-- The `\d+` tail of the pattern under prefix semantics: the remaining
text must start with a digit of the class `dig`. -/
def headDigit (dig : Char → Bool) (l : List Char) : Bool :=
  match l with
  | d :: _ => dig d
  | [] => false

/-- The `-[a-z]+\d+` part of the pattern under prefix semantics. -/
def hyphenTail (dig : Char → Bool) (l : List Char) : Bool :=
  match l with
  | c :: r2 =>
    if c = ('-' : Char) then
      decide (r2.takeWhile Char.isLower ≠ []) && headDigit dig (r2.dropWhile Char.isLower)
    else false
  | [] => false

/-- Embedding of `re.match(r'^[a-z]+-[a-z]+\d+', region)` as a Boolean,
with the digit class `dig` of `\d` as parameter.  `re.match` anchors at
the start only, so this is a prefix match: a non-empty lowercase run, a
hyphen, a non-empty lowercase run, then at least one digit, with
anything allowed after.  Because the classes `[a-z]`, `-` and `\d` are
pairwise disjoint for every digit class satisfying `AsciiDigitPred`,
the backtracking engine accepts exactly what this maximal-munch scan
accepts (`region_match_iff` below proves the equivalence with the
existential reading of the pattern). -/
def region_match (dig : Char → Bool) (s : String) : Bool :=
  decide (s.data.takeWhile Char.isLower ≠ []) && hyphenTail dig (s.data.dropWhile Char.isLower)

/-- Embedding of `PatchManager.validate_region` (begin_patch.py lines
467-479), with the digit class of `\d` as parameter: when the region
does not match the pattern, the error text is printed and the process
exits with status 1; otherwise the method returns normally. -/
def validate_region (dig : Char → Bool) (region : String) : RunResult :=
  if region_match dig region then RunResult.ok else RunResult.exitCode 1

/-- The region format of the claim, read from its words: a non-empty
lowercase word, a hyphen, a non-empty lowercase word, then one or more
digits (of the class `\d`), and nothing else. -/
def RegionShapeExact (dig : Char → Bool) (s : String) : Prop :=
  ∃ a b c : List Char, s.data = a ++ ('-' : Char) :: (b ++ c)
    ∧ a ≠ [] ∧ b ≠ [] ∧ c ≠ []
    ∧ (∀ x ∈ a, x.isLower = true) ∧ (∀ x ∈ b, x.isLower = true)
    ∧ (∀ x ∈ c, dig x = true)

/-- The same format required only at the start of the string, with an
arbitrary suffix allowed after the digits - the language `re.match`
actually tests. -/
def RegionShapeAtStart (dig : Char → Bool) (s : String) : Prop :=
  ∃ a b c rest : List Char, s.data = a ++ ('-' : Char) :: (b ++ c ++ rest)
    ∧ a ≠ [] ∧ b ≠ [] ∧ c ≠ []
    ∧ (∀ x ∈ a, x.isLower = true) ∧ (∀ x ∈ b, x.isLower = true)
    ∧ (∀ x ∈ c, dig x = true)

/-- The `-[a-z]+\d+` part of the pattern under full-match semantics: all
remaining text after the second lowercase run must be digits. -/
def hyphenTailExact (dig : Char → Bool) (l : List Char) : Bool :=
  match l with
  | c :: r2 =>
    if c = ('-' : Char) then
      decide (r2.takeWhile Char.isLower ≠ []) &&
        decide (r2.dropWhile Char.isLower ≠ []) &&
        (r2.dropWhile Char.isLower).all dig
    else false
  | [] => false

/-- A Boolean decision of `RegionShapeExact` (proved equivalent below). -/
def specRegionFormat (dig : Char → Bool) (s : String) : Bool :=
  decide (s.data.takeWhile Char.isLower ≠ [])
    && hyphenTailExact dig (s.data.dropWhile Char.isLower)

theorem region_match_iff (dig : Char → Bool) (hD : AsciiDigitPred dig) (s : String) :
    region_match dig s = true ↔ RegionShapeAtStart dig s := by
  constructor
  · intro h
    rw [region_match, Bool.and_eq_true, decide_eq_true_eq] at h
    rcases h with ⟨ha, hrest⟩
    cases hdrop : s.data.dropWhile Char.isLower with
    | nil => rw [hdrop] at hrest; cases hrest
    | cons c r2 =>
      rw [hdrop] at hrest
      simp only [hyphenTail] at hrest
      by_cases hc : c = ('-' : Char)
      · rw [if_pos hc, Bool.and_eq_true, decide_eq_true_eq] at hrest
        rcases hrest with ⟨hb, hdig⟩
        cases hdrop2 : r2.dropWhile Char.isLower with
        | nil => rw [hdrop2] at hdig; cases hdig
        | cons d rest2 =>
          rw [hdrop2] at hdig
          simp only [headDigit] at hdig
          refine ⟨s.data.takeWhile Char.isLower, r2.takeWhile Char.isLower, [d], rest2,
            ?_, ha, hb, by simp, ?_, ?_, ?_⟩
          · have hr2eq : r2 = r2.takeWhile Char.isLower ++ [d] ++ rest2 := by
              conv_lhs => rw [← List.takeWhile_append_dropWhile Char.isLower r2, hdrop2]
              simp
            calc s.data
                = s.data.takeWhile Char.isLower ++ s.data.dropWhile Char.isLower :=
                  (List.takeWhile_append_dropWhile _ _).symm
              _ = s.data.takeWhile Char.isLower ++ ('-' : Char) :: r2 := by rw [hdrop, hc]
              _ = _ := by rw [← hr2eq]
          · intro x hx; exact List.mem_takeWhile_imp hx
          · intro x hx; exact List.mem_takeWhile_imp hx
          · intro x hx
            rcases List.mem_singleton.mp hx with rfl
            exact hdig
      · rw [if_neg hc] at hrest; cases hrest
  · rintro ⟨a, b, c, rest, hs, hane, hbne, hcne, halow, hblow, hcdig⟩
    rcases List.exists_cons_of_ne_nil hcne with ⟨c0, c', rfl⟩
    have hc0dig : dig c0 = true := hcdig c0 (List.mem_cons_self _ _)
    have hc0low : c0.isLower = false := digPred_not_isLower dig hD c0 hc0dig
    have hsplit1 := takeWhile_all_append Char.isLower a ('-' : Char) (b ++ (c0 :: c') ++ rest)
      halow (by decide)
    have hsplit2 := takeWhile_all_append Char.isLower b c0 (c' ++ rest) hblow hc0low
    have hr2 : b ++ (c0 :: c') ++ rest = b ++ c0 :: (c' ++ rest) := by simp
    rw [region_match, Bool.and_eq_true, decide_eq_true_eq]
    constructor
    · rw [hs, hsplit1.1]; exact hane
    · rw [hs, hsplit1.2]
      simp only [hyphenTail]
      rw [if_pos trivial, hr2, hsplit2.1, hsplit2.2]
      simp only [headDigit, Bool.and_eq_true, decide_eq_true_eq]
      exact ⟨hbne, hc0dig⟩

theorem specRegionFormat_iff (dig : Char → Bool) (hD : AsciiDigitPred dig) (s : String) :
    specRegionFormat dig s = true ↔ RegionShapeExact dig s := by
  constructor
  · intro h
    rw [specRegionFormat, Bool.and_eq_true, decide_eq_true_eq] at h
    rcases h with ⟨ha, hrest⟩
    cases hdrop : s.data.dropWhile Char.isLower with
    | nil => rw [hdrop] at hrest; cases hrest
    | cons c r2 =>
      rw [hdrop] at hrest
      simp only [hyphenTailExact] at hrest
      by_cases hc : c = ('-' : Char)
      · rw [if_pos hc, Bool.and_eq_true, Bool.and_eq_true, decide_eq_true_eq,
          decide_eq_true_eq] at hrest
        rcases hrest with ⟨⟨hb, hr3ne⟩, hall⟩
        refine ⟨s.data.takeWhile Char.isLower, r2.takeWhile Char.isLower,
          r2.dropWhile Char.isLower, ?_, ha, hb, hr3ne, ?_, ?_, ?_⟩
        · calc s.data
              = s.data.takeWhile Char.isLower ++ s.data.dropWhile Char.isLower :=
                (List.takeWhile_append_dropWhile _ _).symm
            _ = s.data.takeWhile Char.isLower ++ ('-' : Char) :: r2 := by rw [hdrop, hc]
            _ = _ := by rw [List.takeWhile_append_dropWhile]
        · intro x hx; exact List.mem_takeWhile_imp hx
        · intro x hx; exact List.mem_takeWhile_imp hx
        · exact List.all_eq_true.mp hall
      · rw [if_neg hc] at hrest; cases hrest
  · rintro ⟨a, b, c, hs, hane, hbne, hcne, halow, hblow, hcdig⟩
    rcases List.exists_cons_of_ne_nil hcne with ⟨c0, c', rfl⟩
    have hc0dig : dig c0 = true := hcdig c0 (List.mem_cons_self _ _)
    have hc0low : c0.isLower = false := digPred_not_isLower dig hD c0 hc0dig
    have hsplit1 := takeWhile_all_append Char.isLower a ('-' : Char) (b ++ (c0 :: c'))
      halow (by decide)
    have hsplit2 := takeWhile_all_append Char.isLower b c0 c' hblow hc0low
    rw [specRegionFormat, Bool.and_eq_true, decide_eq_true_eq]
    constructor
    · rw [hs, hsplit1.1]; exact hane
    · rw [hs, hsplit1.2]
      simp only [hyphenTailExact]
      rw [if_pos trivial, hsplit2.1, hsplit2.2]
      simp only [Bool.and_eq_true, decide_eq_true_eq]
      refine ⟨⟨hbne, by simp⟩, ?_⟩
      exact List.all_eq_true.mpr hcdig

/-- C9 counterexample: the string `us-central1x` is not of the exact GCP
format (there is a trailing `x` after the digits), yet `validate_region`
returns normally, because `re.match` only anchors the pattern at the
start of the string.  The claim as stated is therefore false.  The
instance is taken at the ASCII digit class `Char.isDigit`, which
satisfies `AsciiDigitPred`; since every character of `us-central1x` is
ASCII, every admissible digit class — in particular the actual Unicode
Nd class — classifies the string the same way. -/
theorem validate_region_cex :
    AsciiDigitPred Char.isDigit
    ∧ ¬ RegionShapeExact Char.isDigit ("us-central1x")
    ∧ validate_region Char.isDigit ("us-central1x") = RunResult.ok := by
  refine ⟨fun c _ => rfl, ?_, by decide⟩
  intro h
  have hspec := (specRegionFormat_iff Char.isDigit (fun c _ => rfl) ("us-central1x")).mpr h
  exact absurd hspec (by decide)

/-- C9 (amended): for every digit class `dig` that agrees with `0-9` on
ASCII — as the Unicode Nd class of Python's `\d` does — `validate_region`
returns normally exactly for the region strings that BEGIN with the GCP
shape `<geography>-<region><number>` (a non-empty lowercase word, a
hyphen, a non-empty lowercase word, then at least one `\d` digit, with
an arbitrary suffix allowed after the digits), and prints an error
message and exits with status 1 exactly for all other strings. -/
theorem validate_region_spec (dig : Char → Bool) (hD : AsciiDigitPred dig) (s : String) :
    (validate_region dig s = RunResult.ok ↔ RegionShapeAtStart dig s)
    ∧ (validate_region dig s = RunResult.exitCode 1 ↔ ¬ RegionShapeAtStart dig s) := by
  cases hm : region_match dig s with
  | true =>
    have hshape := (region_match_iff dig hD s).mp hm
    have hv : validate_region dig s = RunResult.ok := by simp [validate_region, hm]
    refine ⟨⟨fun _ => hshape, fun _ => hv⟩, ⟨?_, fun hn => absurd hshape hn⟩⟩
    intro h
    rw [hv] at h
    cases h
  | false =>
    have hnshape : ¬ RegionShapeAtStart dig s := by
      intro hs
      rw [(region_match_iff dig hD s).mpr hs] at hm
      cases hm
    have hv : validate_region dig s = RunResult.exitCode 1 := by simp [validate_region, hm]
    refine ⟨⟨?_, fun hs => absurd hs hnshape⟩, ⟨fun _ => hnshape, fun _ => hv⟩⟩
    intro h
    rw [hv] at h
    cases h

/-- Witness for C9 (amended), at the ASCII digit class (which satisfies
the hypothesis) and the region string `eu-west2`. -/
theorem validate_region_spec_witness :
    AsciiDigitPred Char.isDigit
    ∧ ((validate_region Char.isDigit ("eu-west2") = RunResult.ok
          ↔ RegionShapeAtStart Char.isDigit ("eu-west2"))
        ∧ (validate_region Char.isDigit ("eu-west2") = RunResult.exitCode 1
          ↔ ¬ RegionShapeAtStart Char.isDigit ("eu-west2"))) :=
  ⟨fun c _ => rfl, validate_region_spec Char.isDigit (fun c _ => rfl) ("eu-west2")⟩

/-! ## Claim C10: the file emitter and the patch-group counter -/

/-- One host line written by `create_patch_group_files`: `f"    {host}:\n"`. -/
def hostLine (h : String) : String := "    " ++ h ++ ":\n"

/-- One group block written by `create_patch_group_files` (patch_groups.py
lines 137-157): `f"{group}:\n"`, then `"  hosts:\n"`, then one line per
host. -/
def groupBlock (g : String × List String) : String :=
  g.1 ++ ":\n" ++ "  hosts:\n" ++ String.join (g.2.map hostLine)

/-- The full content of the `patch-groups-{region}.yaml` file written by
`create_patch_group_files` (the sequence of writes concatenated). -/
def patch_group_file_content (patch_groups : RoleMap) : String :=
  String.join (patch_groups.map groupBlock)

/-- A probe of the regex `pg\d+:` just after a `p` was seen, with the
digit class `dig` of `\d` as parameter: the text must continue with `g`,
a non-empty digit run, and `:`; on success the scan resumes after the
colon.  For every digit class satisfying `AsciiDigitPred` the classes
`g`, `\d` and `:` are pairwise disjoint, so the greedy backtracking
engine accepts exactly this maximal-munch probe. -/
def pgProbe (dig : Char → Bool) (rest : List Char) : Option (List Char) :=
  match rest with
  | g :: rest2 =>
    if g = ('g' : Char) then
      if (rest2.takeWhile dig) ≠ []
          ∧ (rest2.dropWhile dig).head? = some (':' : Char)
      then some ((rest2.dropWhile dig).tail)
      else none
    else none
  | [] => none

/-- Counting `len(re.findall(r'pg\d+:', content))` with explicit fuel: scan left to
right; at each position, a successful match is counted and skipped
(findall returns non-overlapping matches), otherwise the scan advances
one character.  The fuel only makes the recursion structural; `countPG`
supplies enough. -/
def countPGAux (dig : Char → Bool) : Nat → List Char → Nat
  | 0, _ => 0
  | _ + 1, [] => 0
  | fuel + 1, c :: rest =>
    if c = ('p' : Char) then
      match pgProbe dig rest with
      | some r4 => 1 + countPGAux dig fuel r4
      | none => countPGAux dig fuel rest
    else countPGAux dig fuel rest

/-- Counting `len(re.findall(r'pg\d+:', content))` on a character list. -/
def countPG (dig : Char → Bool) (l : List Char) : Nat := countPGAux dig l.length l

/-- Embedding of `InventoryManager.count_patch_groups` (begin_patch.py
lines 211-221) on the file content it reads, with the digit class of
`\d` as parameter (the program is the instance at Unicode Nd). -/
def count_patch_groups (dig : Char → Bool) (content : String) : Nat :=
  countPG dig content.data

theorem length_dropWhile_le (p : Char → Bool) (l : List Char) :
    (l.dropWhile p).length ≤ l.length := by
  induction l with
  | nil => exact le_refl _
  | cons a t ih =>
    rw [List.dropWhile_cons]
    by_cases h : p a
    · rw [if_pos h]
      exact le_trans ih (by simp)
    · rw [if_neg h]

theorem pgProbe_length (dig : Char → Bool) (rest r4 : List Char)
    (h : pgProbe dig rest = some r4) :
    r4.length < rest.length := by
  cases rest with
  | nil => cases h
  | cons g rest2 =>
    simp only [pgProbe] at h
    by_cases hg : g = ('g' : Char)
    · rw [if_pos hg] at h
      by_cases hc : (rest2.takeWhile dig) ≠ []
          ∧ (rest2.dropWhile dig).head? = some (':' : Char)
      · rw [if_pos hc] at h
        have hr4 : r4 = (rest2.dropWhile dig).tail := (Option.some.inj h).symm
        rw [hr4, List.length_tail, List.length_cons]
        have h1 := length_dropWhile_le dig rest2
        omega
      · rw [if_neg hc] at h; cases h
    · rw [if_neg hg] at h; cases h

theorem countPGAux_congr (dig : Char → Bool) : ∀ f1 f2 l, l.length ≤ f1 → l.length ≤ f2 →
    countPGAux dig f1 l = countPGAux dig f2 l := by
  intro f1
  induction f1 with
  | zero =>
    intro f2 l h1 _
    have : l = [] := List.length_eq_zero.mp (by omega)
    subst this
    cases f2 <;> rfl
  | succ f1 ih =>
    intro f2 l h1 h2
    cases l with
    | nil => cases f2 <;> rfl
    | cons c rest =>
      match f2, h2 with
      | f2 + 1, h2 =>
        simp only [countPGAux]
        rw [List.length_cons] at h1 h2
        by_cases hc : c = ('p' : Char)
        · rw [if_pos hc, if_pos hc]
          cases hpr : pgProbe dig rest with
          | some r4 =>
            have hl := pgProbe_length dig rest r4 hpr
            show 1 + countPGAux dig f1 r4 = 1 + countPGAux dig f2 r4
            rw [ih f2 r4 (by omega) (by omega)]
          | none =>
            show countPGAux dig f1 rest = countPGAux dig f2 rest
            exact ih f2 rest (by omega) (by omega)
        · rw [if_neg hc, if_neg hc]
          exact ih f2 rest (by omega) (by omega)

theorem countPG_cons_not_p (dig : Char → Bool) (c : Char) (rest : List Char)
    (h : ¬ (c = ('p' : Char))) :
    countPG dig (c :: rest) = countPG dig rest := by
  show countPGAux dig (c :: rest).length (c :: rest) = _
  rw [List.length_cons]
  simp only [countPGAux, if_neg h]
  rfl

theorem countPG_cons_p_none (dig : Char → Bool) (rest : List Char)
    (h : pgProbe dig rest = none) :
    countPG dig (('p' : Char) :: rest) = countPG dig rest := by
  show countPGAux dig (('p' : Char) :: rest).length (('p' : Char) :: rest) = _
  rw [List.length_cons]
  simp only [countPGAux, if_pos rfl, h]
  rfl

theorem countPG_cons_p_some (dig : Char → Bool) (rest r4 : List Char)
    (h : pgProbe dig rest = some r4) :
    countPG dig (('p' : Char) :: rest) = 1 + countPG dig r4 := by
  show countPGAux dig (('p' : Char) :: rest).length (('p' : Char) :: rest) = _
  rw [List.length_cons]
  simp only [countPGAux, if_pos rfl, h]
  have hl := pgProbe_length dig rest r4 h
  rw [countPGAux_congr dig rest.length r4.length r4 (by omega) (le_refl _)]
  rfl

theorem countPG_skip (dig : Char → Bool) (pre : List Char)
    (hpre : ∀ c ∈ pre, ¬ (c = ('p' : Char))) :
    ∀ rest, countPG dig (pre ++ rest) = countPG dig rest := by
  induction pre with
  | nil => intro rest; rfl
  | cons a t ih =>
    intro rest
    rw [List.cons_append, countPG_cons_not_p dig a _ (hpre a (List.mem_cons_self _ _))]
    exact ih (fun c hc => hpre c (List.mem_cons_of_mem _ hc)) rest

theorem getLast?_cons_of_ne_nil (a : Char) (l : List Char) (h : l ≠ []) :
    (a :: l).getLast? = l.getLast? := by
  cases l with
  | nil => exact absurd rfl h
  | cons b t =>
    rw [show a :: b :: t = [a] ++ (b :: t) from rfl]
    exact List.getLast?_append_of_ne_nil [a] (by simp)

theorem takeWhile_append_of_exists (p : Char → Bool) (l y : List Char)
    (h : ∃ c ∈ l, p c = false) :
    (l ++ y).takeWhile p = l.takeWhile p
      ∧ (l ++ y).dropWhile p = l.dropWhile p ++ y := by
  induction l with
  | nil =>
    rcases h with ⟨c, hc, _⟩
    cases hc
  | cons a t ih =>
    by_cases hpa : p a = true
    · have hex : ∃ c ∈ t, p c = false := by
        rcases h with ⟨c, hc, hpc⟩
        rcases List.mem_cons.mp hc with rfl | hct
        · rw [hpa] at hpc; cases hpc
        · exact ⟨c, hct, hpc⟩
      have ht := ih hex
      simp only [List.cons_append, List.takeWhile_cons, List.dropWhile_cons, hpa, if_true]
      exact ⟨by rw [ht.1], by rw [ht.2]⟩
    · have hpa' : p a = false := by
        cases hh : p a with
        | true => exact absurd hh hpa
        | false => rfl
      simp only [List.cons_append, List.takeWhile_cons, List.dropWhile_cons, hpa', if_false]
      exact ⟨rfl, rfl⟩

theorem pgProbe_append (dig : Char → Bool) (hD : AsciiDigitPred dig) (x y : List Char)
    (hNL : x.getLast? = some ('\n' : Char)) :
    pgProbe dig (x ++ y) = (pgProbe dig x).map (fun r4 => r4 ++ y) := by
  have hnlf : dig ('\n' : Char) = false :=
    digPred_char_false dig hD ('\n' : Char) (by decide) (by decide)
  cases x with
  | nil => cases hNL
  | cons g rest2 =>
    show pgProbe dig (g :: (rest2 ++ y)) = _
    simp only [pgProbe]
    by_cases hg : g = ('g' : Char)
    · rw [if_pos hg, if_pos hg]
      have hrest2ne : rest2 ≠ [] := by
        intro hnil
        subst hnil
        subst hg
        have hgl : ('g' : Char) = ('\n' : Char) := by simpa using hNL
        exact absurd hgl (by decide)
      have hlast2 : rest2.getLast? = some ('\n' : Char) := by
        rw [← getLast?_cons_of_ne_nil g rest2 hrest2ne]
        exact hNL
      have hnlmem : ('\n' : Char) ∈ rest2 := List.mem_of_mem_getLast? hlast2
      have hTD := takeWhile_append_of_exists dig rest2 y
        ⟨('\n' : Char), hnlmem, hnlf⟩
      have hdne : rest2.dropWhile dig ≠ [] := by
        intro hnil
        have hdig := List.dropWhile_eq_nil_iff.mp hnil ('\n' : Char) hnlmem
        rw [hnlf] at hdig
        cases hdig
      rw [hTD.1, hTD.2]
      by_cases hcond : (rest2.takeWhile dig) ≠ []
          ∧ (rest2.dropWhile dig).head? = some (':' : Char)
      · have hhead : (rest2.dropWhile dig ++ y).head?
            = (rest2.dropWhile dig).head? :=
          List.head?_append_of_ne_nil _ hdne
        rw [if_pos ⟨hcond.1, by rw [hhead]; exact hcond.2⟩, if_pos hcond]
        have htail : (rest2.dropWhile dig ++ y).tail
            = (rest2.dropWhile dig).tail ++ y := by
          cases hd : rest2.dropWhile dig with
          | nil => exact absurd hd hdne
          | cons u v => simp
        rw [htail]
        rfl
      · have hcond2 : ¬ ((rest2.takeWhile dig) ≠ []
            ∧ (rest2.dropWhile dig ++ y).head? = some (':' : Char)) := by
          intro hc
          exact hcond ⟨hc.1, by rw [← List.head?_append_of_ne_nil _ hdne]; exact hc.2⟩
        rw [if_neg hcond2, if_neg hcond]
        rfl
    · rw [if_neg hg, if_neg hg]
      rfl

theorem pgProbe_endsNL (dig : Char → Bool) (hD : AsciiDigitPred dig) (x r4 : List Char)
    (hNL : x.getLast? = some ('\n' : Char))
    (h : pgProbe dig x = some r4) : r4.getLast? = some ('\n' : Char) := by
  have hnlf : dig ('\n' : Char) = false :=
    digPred_char_false dig hD ('\n' : Char) (by decide) (by decide)
  cases x with
  | nil => cases h
  | cons g rest2 =>
    simp only [pgProbe] at h
    by_cases hg : g = ('g' : Char)
    · rw [if_pos hg] at h
      by_cases hcond : (rest2.takeWhile dig) ≠ []
          ∧ (rest2.dropWhile dig).head? = some (':' : Char)
      · rw [if_pos hcond] at h
        have hr4 : r4 = (rest2.dropWhile dig).tail := (Option.some.inj h).symm
        have hrest2ne : rest2 ≠ [] := by
          intro hnil
          subst hnil
          subst hg
          have hgl : ('g' : Char) = ('\n' : Char) := by simpa using hNL
          exact absurd hgl (by decide)
        have hlast2 : rest2.getLast? = some ('\n' : Char) := by
          rw [← getLast?_cons_of_ne_nil g rest2 hrest2ne]
          exact hNL
        have hdne : rest2.dropWhile dig ≠ [] := by
          intro hnil
          have hnlmem : ('\n' : Char) ∈ rest2 := List.mem_of_mem_getLast? hlast2
          have hdig := List.dropWhile_eq_nil_iff.mp hnil ('\n' : Char) hnlmem
          rw [hnlf] at hdig
          cases hdig
        have hdlast : (rest2.dropWhile dig).getLast? = some ('\n' : Char) := by
          have hsplit : rest2.takeWhile dig ++ rest2.dropWhile dig = rest2 :=
            List.takeWhile_append_dropWhile _ _
          rw [← List.getLast?_append_of_ne_nil (rest2.takeWhile dig) hdne, hsplit]
          exact hlast2
        cases hd : rest2.dropWhile dig with
        | nil => exact absurd hd hdne
        | cons u v =>
          rw [hd] at hr4
          have hune : v ≠ [] := by
            intro hnil
            rw [hd, hnil] at hdlast
            have hcol : u = (':' : Char) := by
              rw [hd, hnil] at hcond
              simpa using hcond.2
            have : u = ('\n' : Char) := by simpa using hdlast
            rw [hcol] at this
            exact absurd this (by decide)
          rw [hr4]
          show v.getLast? = _
          rw [← getLast?_cons_of_ne_nil u v hune, ← hd]
          exact hdlast
      · rw [if_neg hcond] at h; cases h
    · rw [if_neg hg] at h; cases h

theorem countPG_append_aux (dig : Char → Bool) (hD : AsciiDigitPred dig) :
    ∀ (n : Nat) (x : List Char), x.length = n →
    (x = [] ∨ x.getLast? = some ('\n' : Char)) →
    ∀ y, countPG dig (x ++ y) = countPG dig x + countPG dig y := by
  intro n
  induction n using Nat.strong_induction_on with
  | _ n ih =>
    intro x hlen hNL y
    cases x with
    | nil =>
      show countPG dig y = countPG dig [] + countPG dig y
      rw [show countPG dig [] = 0 from rfl]
      omega
    | cons c x' =>
      rcases hNL with hx0 | hlast
      · cases hx0
      by_cases hx' : x' = []
      · subst hx'
        have hc : c = ('\n' : Char) := by simpa using hlast
        subst hc
        rw [List.cons_append, List.nil_append,
          countPG_cons_not_p dig _ _ (by decide),
          show countPG dig [('\n' : Char)] = 0 from by
            rw [countPG_cons_not_p dig _ _ (by decide)]; rfl]
        omega
      · have hlast' : x'.getLast? = some ('\n' : Char) := by
          rw [← getLast?_cons_of_ne_nil c x' hx']
          exact hlast
        have hlt : x'.length < n := by
          rw [← hlen, List.length_cons]
          omega
        by_cases hc : c = ('p' : Char)
        · subst hc
          cases hpr : pgProbe dig x' with
          | none =>
            have hprA : pgProbe dig (x' ++ y) = none := by
              rw [pgProbe_append dig hD x' y hlast', hpr]
              rfl
            rw [List.cons_append, countPG_cons_p_none dig _ hprA,
              countPG_cons_p_none dig _ hpr]
            exact ih x'.length hlt x' rfl (Or.inr hlast') y
          | some r4 =>
            have hprA : pgProbe dig (x' ++ y) = some (r4 ++ y) := by
              rw [pgProbe_append dig hD x' y hlast', hpr]
              rfl
            have hr4NL := pgProbe_endsNL dig hD x' r4 hlast' hpr
            have hr4len := pgProbe_length dig x' r4 hpr
            rw [List.cons_append, countPG_cons_p_some dig _ _ hprA,
              countPG_cons_p_some dig _ _ hpr]
            rw [ih r4.length (by omega) r4 rfl (Or.inr hr4NL) y]
            omega
        · rw [List.cons_append, countPG_cons_not_p dig _ _ hc, countPG_cons_not_p dig _ _ hc]
          exact ih x'.length hlt x' rfl (Or.inr hlast') y

theorem countPG_append (dig : Char → Bool) (hD : AsciiDigitPred dig) (x y : List Char)
    (hNL : x = [] ∨ x.getLast? = some ('\n' : Char)) :
    countPG dig (x ++ y) = countPG dig x + countPG dig y :=
  countPG_append_aux dig hD x.length x rfl hNL y

theorem string_data_append (s t : String) : (s ++ t).data = s.data ++ t.data := rfl

theorem string_join_data_aux (l : List String) :
    ∀ s : String, (l.foldl (fun a b => a ++ b) s).data
      = s.data ++ (l.map String.data).flatten := by
  induction l with
  | nil => intro s; simp
  | cons a t ih =>
    intro s
    rw [List.foldl_cons, ih (s ++ a), string_data_append]
    simp [List.append_assoc]

theorem string_join_data (l : List String) :
    (String.join l).data = (l.map String.data).flatten := by
  show (l.foldl (fun a b => a ++ b) ("" : String)).data = _
  rw [string_join_data_aux]
  rfl

theorem hostLine_lastNL (h : String) : (hostLine h).data.getLast? = some ('\n' : Char) := by
  show ((("    " : String) ++ h) ++ (":\n" : String)).data.getLast? = _
  rw [string_data_append]
  rw [List.getLast?_append_of_ne_nil _ (by decide)]
  rfl

theorem getLast?_append_nl (x y : List Char)
    (hx : x.getLast? = some ('\n' : Char))
    (hy : y = [] ∨ y.getLast? = some ('\n' : Char)) :
    (x ++ y).getLast? = some ('\n' : Char) := by
  rcases hy with rfl | hy
  · simpa using hx
  · have hyne : y ≠ [] := by intro hnil; rw [hnil] at hy; cases hy
    rw [List.getLast?_append_of_ne_nil x hyne]
    exact hy

theorem join_hostLines_endsNL (hosts : List String) :
    (String.join (hosts.map hostLine)).data = []
      ∨ (String.join (hosts.map hostLine)).data.getLast? = some ('\n' : Char) := by
  induction hosts with
  | nil => exact Or.inl rfl
  | cons h t ih =>
    right
    have hd : (String.join ((h :: t).map hostLine)).data
        = (hostLine h).data ++ (String.join (t.map hostLine)).data := by
      rw [string_join_data, string_join_data, List.map_cons, List.map_cons, List.flatten_cons]
    rw [hd]
    exact getLast?_append_nl _ _ (hostLine_lastNL h) ih

theorem groupBlock_lastNL (g : String × List String) :
    (groupBlock g).data.getLast? = some ('\n' : Char) := by
  have hd : (groupBlock g).data
      = ((g.1 ++ (":\n" : String)).data ++ ("  hosts:\n" : String).data)
        ++ (String.join (g.2.map hostLine)).data := by
    show (((g.1 ++ (":\n" : String)) ++ ("  hosts:\n" : String))
        ++ String.join (g.2.map hostLine)).data = _
    rw [string_data_append, string_data_append]
  rw [hd]
  apply getLast?_append_nl
  · rw [List.getLast?_append_of_ne_nil _ (by decide)]
    rfl
  · exact join_hostLines_endsNL g.2

theorem digitChar_isDigit : ∀ d, d < 10 → (digitChar d).isDigit = true := by decide

theorem pyNatRepr_all_digits (n : Nat) : ∀ x ∈ (pyNatRepr n).data, x.isDigit = true := by
  intro x hx
  rw [pyNatRepr_data] at hx
  by_cases hn : n = 0
  · rw [if_pos hn] at hx
    rcases List.mem_singleton.mp hx with rfl
    decide
  · rw [if_neg hn] at hx
    rw [List.mem_reverse] at hx
    rcases List.mem_map.mp hx with ⟨d, hd, hdx⟩
    rw [← hdx]
    exact digitChar_isDigit d (natDigitsRev_lt n d hd)

/-- Every character of `str(n)` is an ASCII digit, hence a member of
every digit class satisfying `AsciiDigitPred`. -/
theorem pyNatRepr_all_dig (dig : Char → Bool) (hD : AsciiDigitPred dig) (n : Nat) :
    ∀ x ∈ (pyNatRepr n).data, dig x = true := by
  intro x hx
  have hdig := pyNatRepr_all_digits n x hx
  rw [hD x (isDigit_toNat_lt x hdig)]
  exact hdig

theorem pyNatRepr_ne_nil (n : Nat) : (pyNatRepr n).data ≠ [] := by
  rw [pyNatRepr_data]
  by_cases hn : n = 0
  · rw [if_pos hn]
    simp
  · rw [if_neg hn]
    simp only [ne_eq, List.reverse_eq_nil_iff, List.map_eq_nil]
    rw [natDigitsRev_eq_nil_iff]
    exact hn

theorem pgProbe_repr (dig : Char → Bool) (hD : AsciiDigitPred dig) (ds : List Char)
    (rest : List Char)
    (hds : ∀ x ∈ ds, dig x = true) (hne : ds ≠ []) :
    pgProbe dig (('g' : Char) :: (ds ++ (':' : Char) :: rest)) = some rest := by
  simp only [pgProbe, if_pos rfl]
  have hTD := takeWhile_all_append dig ds (':' : Char) rest hds
    (digPred_char_false dig hD (':' : Char) (by decide) (by decide))
  rw [hTD.1, hTD.2]
  rw [if_pos (show ds ≠ [] ∧ ((':' : Char) :: rest).head? = some (':' : Char) from ⟨hne, rfl⟩)]
  rfl

theorem countPG_join_hostLines (dig : Char → Bool) (hD : AsciiDigitPred dig)
    (hosts : List String)
    (hhosts : ∀ h ∈ hosts, countPG dig (hostLine h).data = 0) :
    countPG dig (String.join (hosts.map hostLine)).data = 0 := by
  induction hosts with
  | nil => rfl
  | cons h t ih =>
    have hd : (String.join ((h :: t).map hostLine)).data
        = (hostLine h).data ++ (String.join (t.map hostLine)).data := by
      rw [string_join_data, string_join_data, List.map_cons, List.map_cons, List.flatten_cons]
    rw [hd, countPG_append dig hD _ _ (Or.inr (hostLine_lastNL h)),
      hhosts h (List.mem_cons_self _ _),
      ih (fun h5 hh => hhosts h5 (List.mem_cons_of_mem _ hh))]

theorem countPG_groupBlock (dig : Char → Bool) (hD : AsciiDigitPred dig)
    (j : Nat) (hosts : List String)
    (hhosts : ∀ h ∈ hosts, countPG dig (hostLine h).data = 0) :
    countPG dig (groupBlock (pgName j, hosts)).data = 1 := by
  have hdata : (groupBlock (pgName j, hosts)).data
      = ('p' : Char) :: ('g' : Char) :: ((pyNatRepr j).data
          ++ (':' : Char) :: ((('\n' : Char) :: ("  hosts:\n" : String).data)
            ++ (String.join (hosts.map hostLine)).data)) := by
    show (((pgName j ++ (":\n" : String)) ++ ("  hosts:\n" : String))
        ++ String.join (hosts.map hostLine)).data = _
    rw [string_data_append, string_data_append, string_data_append]
    rw [show (pgName j).data = ('p' : Char) :: ('g' : Char) :: (pyNatRepr j).data from rfl]
    rw [show ((":\n" : String)).data = [(':' : Char), ('\n' : Char)] from rfl]
    simp
  rw [hdata]
  rw [countPG_cons_p_some dig _ _
    (pgProbe_repr dig hD (pyNatRepr j).data _ (pyNatRepr_all_dig dig hD j)
      (pyNatRepr_ne_nil j))]
  rw [countPG_skip dig (('\n' : Char) :: ("  hosts:\n" : String).data) (by decide)]
  rw [countPG_join_hostLines dig hD hosts hhosts]

theorem countPG_content (dig : Char → Bool) (hD : AsciiDigitPred dig) :
    ∀ (pgs : RoleMap) (s K : Nat),
    pgs.map (fun g => g.1) = (List.range' s K).map pgName →
    (∀ g ∈ pgs, ∀ h ∈ g.2, countPG dig (hostLine h).data = 0) →
    countPG dig (patch_group_file_content pgs).data = K := by
  intro pgs
  induction pgs with
  | nil =>
    intro s K hkeys _
    have hr : (List.range' s K).map pgName = [] := hkeys.symm
    have hK : K = 0 := by
      have := List.map_eq_nil.mp hr
      exact List.range'_eq_nil.mp this
    subst hK
    rfl
  | cons g rest ih =>
    intro s K hkeys hhosts
    rw [List.map_cons] at hkeys
    cases K with
    | zero =>
      rw [show List.range' s 0 = ([] : List Nat) from rfl] at hkeys
      cases hkeys
    | succ K =>
      rw [List.range'_succ s K 1, List.map_cons] at hkeys
      have hg1 : g.1 = pgName s := List.head_eq_of_cons_eq hkeys
      have htl : rest.map (fun g => g.1) = (List.range' (s + 1) K).map pgName :=
        List.tail_eq_of_cons_eq hkeys
      have hd : (patch_group_file_content (g :: rest)).data
          = (groupBlock g).data ++ (patch_group_file_content rest).data := by
        show (String.join ((g :: rest).map groupBlock)).data = _
        rw [string_join_data, List.map_cons, List.map_cons, List.flatten_cons]
        rw [show (patch_group_file_content rest).data
          = ((rest.map groupBlock).map String.data).flatten from string_join_data _]
      rw [hd, countPG_append dig hD _ _ (Or.inr (groupBlock_lastNL g))]
      have hblock : countPG dig (groupBlock g).data = 1 := by
        have hge : groupBlock g = groupBlock (pgName s, g.2) := by
          rw [show groupBlock g = groupBlock (g.1, g.2) from rfl, hg1]
        rw [hge]
        exact countPG_groupBlock dig hD s g.2 (hhosts g (List.mem_cons_self _ _))
      rw [hblock, ih (s + 1) K htl (fun g5 hg5 => hhosts g5 (List.mem_cons_of_mem _ hg5))]
      omega

/-- C10 counterexample: a host NAMED `pg2` in group `pg1` makes the host
line `    pg2:` match the pattern too, so `count_patch_groups` returns 2
for a one-group file and the round trip as claimed is false.  The
instance is taken at the ASCII digit class `Char.isDigit`, which
satisfies `AsciiDigitPred`; since the file text here is pure ASCII,
every admissible digit class — in particular the actual Unicode Nd
class — yields the same scan. -/
theorem count_patch_groups_cex :
    AsciiDigitPred Char.isDigit
    ∧ ([(("pg1" : String), [("pg2" : String)])] : RoleMap).map (fun g => g.1)
      = (List.range' 1 1).map pgName
    ∧ count_patch_groups Char.isDigit
        (patch_group_file_content [(("pg1" : String), [("pg2" : String)])]) = 2
    ∧ ¬ ((2 : Nat) = 1) := by
  refine ⟨fun c _ => rfl, by decide, by decide, by decide⟩

/-- C10 (amended): for every digit class `dig` that agrees with `0-9` on
ASCII — as the Unicode Nd class of Python's `\d` does — and every
patch-group mapping whose keys are `pg1 ... pgK`, provided no line
written for a host name itself contains an occurrence of the pattern
`pg<digits>:`, `count_patch_groups` applied to the file text produced by
`create_patch_group_files` returns exactly `K`, the number of groups. -/
theorem count_patch_groups_roundtrip (dig : Char → Bool) (hD : AsciiDigitPred dig)
    (K : Nat) (pgs : RoleMap)
    (hkeys : pgs.map (fun g => g.1) = (List.range' 1 K).map pgName)
    (hhosts : ∀ g ∈ pgs, ∀ h ∈ g.2, countPG dig (hostLine h).data = 0) :
    count_patch_groups dig (patch_group_file_content pgs) = K :=
  countPG_content dig hD pgs 1 K hkeys hhosts

/-- Witness for C10 (amended), at the ASCII digit class (which satisfies
the hypothesis). -/
theorem count_patch_groups_roundtrip_witness :
    AsciiDigitPred Char.isDigit
    ∧ ([((pgName 1), [("alpha" : String)]), ((pgName 2), [("beta" : String), "gamma"])] : RoleMap).map (fun g => g.1)
      = (List.range' 1 2).map pgName
    ∧ (∀ g ∈ ([((pgName 1), [("alpha" : String)]), ((pgName 2), [("beta" : String), "gamma"])] : RoleMap),
        ∀ h ∈ g.2, countPG Char.isDigit (hostLine h).data = 0)
    ∧ count_patch_groups Char.isDigit (patch_group_file_content
        [((pgName 1), [("alpha" : String)]), ((pgName 2), [("beta" : String), "gamma"])]) = 2 :=
  ⟨fun c _ => rfl, by decide, by decide,
    count_patch_groups_roundtrip Char.isDigit (fun c _ => rfl) 2 _ (by decide) (by decide)⟩
